import Mathlib

/-!
Verification of the pipeline makespan scheduler (`calc_makespan.py`).

The Python source is shallowly embedded below.  Machine integers are
modelled as `Nat`/`Int`; the Python float infinity used for the
next-event time is modelled by the two-constructor type `ETime`; the
`ZeroDivisionError` that the default duration function can raise is
modelled by `Option`.  The discrete-event loop is given as an explicit
step function on a state record, iterated with fuel.
-/

/-- Natural-number time extended with infinity, mirroring Python's use of
`float("inf")` for the next-event time (and for comparisons of clock
values, where `inf == inf` is true and `inf > inf` is false). -/
inductive ETime where
  | fin : Nat → ETime
  | inf : ETime
deriving DecidableEq, Repr

/-- `t + d` for a clock value `t` and a natural duration `d`; in Python,
`inf + d == inf`. -/
def ETime.addNat : ETime → Nat → ETime
  | .fin n, d => .fin (n + d)
  | .inf, _ => .inf

/-- Strict comparison of clock values, as Python compares ints/inf. -/
def ETime.blt : ETime → ETime → Bool
  | .fin a, .fin b => Nat.blt a b
  | .fin _, .inf => true
  | .inf, _ => false

/-- Non-strict comparison of clock values. -/
def ETime.ble : ETime → ETime → Bool
  | .fin a, .fin b => Nat.ble a b
  | .fin _, .inf => true
  | .inf, .fin _ => false
  | .inf, .inf => true

/-- Python's `min` on clock values. -/
def ETime.emin (a b : ETime) : ETime := if ETime.ble a b then a else b

/-- Python's `max` on clock values. -/
def ETime.emax (a b : ETime) : ETime := if ETime.ble a b then b else a

/-- `class PipelineTask` (constructor arguments; `name` is never used by
the scheduling logic but kept for fidelity).  The pluggable
`parallel_func` is modelled as returning `Option Nat`, where `none`
stands for a raised exception (e.g. `ZeroDivisionError`). -/
structure PipelineTask where
  name : String
  step : Nat
  timeFactor : Nat
  spaceFactor : Nat
  cpus : Nat
  parallelFunc : Nat → Nat → Nat → Option Nat

/-- The default duration function
`lambda size, time, cpus: size * time // cpus`: Python raises
`ZeroDivisionError` when `cpus == 0`, modelled by `none`; otherwise it
is floor division on non-negative integers. -/
def defaultParallelFunc (size time cpus : Nat) : Option Nat :=
  if cpus = 0 then none else some (size * time / cpus)

/-- The mutable per-job state built by `Job.__init__` plus the fields the
engine mutates.  `step` and `sampleIdx` record the owning task's step and
the owning sample's index (Python holds object references instead). -/
structure JobState where
  duration : Nat
  memory : Nat
  cpus : Nat
  step : Nat
  sampleIdx : Nat
  isRunning : Bool
  startTime : Option ETime
  endTime : Option ETime
deriving DecidableEq, Repr

/-- The engine state of `calc_makespan`: the flat job matrix in
task-major order (row `i` of `all_jobs` flattened), the shared
`steps_completed` counters of the samples, the resource pools, the
`schedule` list of admitted job indices, `num_remaining_jobs`,
`makespan` and the clock `t`. -/
structure LoopState where
  jobs : List JobState
  stepsCompleted : List Nat
  availableCpus : Nat
  availableMem : Nat
  schedule : List Nat
  remaining : Int
  makespan : ETime
  t : ETime
deriving DecidableEq, Repr

/-- One entry of the retire scan (`for job in schedule:` body, lines
66-74 of the source): a job whose `end_time` equals the clock is marked
not running, returns its resources, bumps its sample's
`steps_completed` and decrements `num_remaining_jobs`; otherwise a
still-running job with `end_time > t` proposes its end time as the next
event. -/
def retireStep (acc : LoopState × ETime) (idx : Nat) : LoopState × ETime :=
  match acc.1.jobs.get? idx with
  | none => acc
  | some j =>
    if j.endTime = some acc.1.t then
      ({ acc.1 with
          jobs := acc.1.jobs.set idx { j with isRunning := false },
          availableCpus := acc.1.availableCpus + j.cpus,
          availableMem := acc.1.availableMem + j.memory,
          stepsCompleted :=
            acc.1.stepsCompleted.set j.sampleIdx (acc.1.stepsCompleted.getD j.sampleIdx 0 + 1),
          remaining := acc.1.remaining - 1 }, acc.2)
    else
      match j.endTime with
      | some e =>
        if ETime.blt acc.1.t e && j.isRunning then (acc.1, ETime.emin acc.2 e) else acc
      | none => acc

/-- The retire phase: fold the retire scan over the `schedule` list,
starting from `next_t = inf`. -/
def retirePhase (s : LoopState) : LoopState × ETime :=
  s.schedule.foldl retireStep (s, ETime.inf)

/-- One entry of the admission scan (lines 78-91 of the source): a job
that is not running, whose sample has completed exactly its task's step,
and whose cpu and memory demands fit the free pools, is started at the
current clock; resources are deducted immediately, `next_t` and
`makespan` are updated and the job is appended to `schedule`. -/
def admitStep (acc : LoopState × ETime) (idx : Nat) : LoopState × ETime :=
  match acc.1.jobs.get? idx with
  | none => acc
  | some j =>
    if j.isRunning then acc
    else if acc.1.stepsCompleted.getD j.sampleIdx 0 ≠ j.step then acc
    else if acc.1.availableCpus < j.cpus then acc
    else if acc.1.availableMem < j.memory then acc
    else
      ({ acc.1 with
          jobs := acc.1.jobs.set idx
            { j with isRunning := true, startTime := some acc.1.t,
                     endTime := some (ETime.addNat acc.1.t j.duration) },
          availableCpus := acc.1.availableCpus - j.cpus,
          availableMem := acc.1.availableMem - j.memory,
          makespan := ETime.emax acc.1.makespan (ETime.addNat acc.1.t j.duration),
          schedule := acc.1.schedule ++ [idx] },
        ETime.emin acc.2 (ETime.addNat acc.1.t j.duration))

/-- The admission phase: scan the whole job matrix in task-major,
sample-minor order (the flat index order). -/
def admitPhase (s : LoopState) (nt : ETime) : LoopState × ETime :=
  (List.range s.jobs.length).foldl admitStep (s, nt)

/-- One iteration of the event loop body (lines 59-93): retire phase,
admission phase, then `t = next_t`. -/
def loopIter (s : LoopState) : LoopState :=
  let r := retirePhase s
  let a := admitPhase r.1 r.2
  { a.1 with t := a.2 }

/-- `n` iterations of the loop body, ignoring the guard (used to state
properties of the executed iterations of a run). -/
def iterLoop : Nat → LoopState → LoopState
  | 0, s => s
  | n + 1, s => iterLoop n (loopIter s)

/-- The guarded while loop `while num_remaining_jobs > 0`, with fuel;
`none` means the fuel was exhausted before the guard became false. -/
def runLoop : Nat → LoopState → Option LoopState
  | 0, s => if s.remaining ≤ 0 then some s else none
  | n + 1, s => if s.remaining ≤ 0 then some s else runLoop n (loopIter s)

/-- Step validation (lines 34-37): after sorting, `tasks[i].step == i`
for every index `i`. -/
def stepsMatchFrom : Nat → List PipelineTask → Bool
  | _, [] => true
  | i, t :: rest => (t.step == i) && stepsMatchFrom (i + 1) rest

/-- The whole step-sequence validation of the sorted task list. -/
def validSteps (ts : List PipelineTask) : Bool := stepsMatchFrom 0 ts

/-- One row of the job matrix: the jobs of one task over the samples in
input order (`[Job(sample, task) for sample in samples]`); `none` when
the duration function raises for some sample. -/
def buildRowFrom (t : PipelineTask) : Nat → List Nat → Option (List JobState)
  | _, [] => some []
  | i, sz :: rest =>
    match t.parallelFunc sz t.timeFactor t.cpus, buildRowFrom t (i + 1) rest with
    | some d, some js =>
        some ({ duration := d, memory := sz * t.spaceFactor, cpus := t.cpus,
                step := t.step, sampleIdx := i, isRunning := false,
                startTime := none, endTime := none } :: js)
    | _, _ => none

/-- The full job matrix (line 41), flattened in task-major order. -/
def buildJobs (sizes : List Nat) : List PipelineTask → Option (List JobState)
  | [] => some []
  | t :: rest =>
    match buildRowFrom t 0 sizes, buildJobs sizes rest with
    | some row, some more => some (row ++ more)
    | _, _ => none

/-- The feasibility check (lines 45-48): some job's memory demand
exceeds `max_memory` or its cpu demand exceeds `max_cpus`. -/
def anyInfeasible (maxMemory maxCpus : Nat) (jobs : List JobState) : Bool :=
  jobs.any fun j => Nat.blt maxMemory j.memory || Nat.blt maxCpus j.cpus

/-- `tasks.sort(key=lambda task: task.step)` (line 32). -/
def sortTasks (ts : List PipelineTask) : List PipelineTask :=
  List.insertionSort (fun a b => a.step ≤ b.step) ts

/-- The initial engine state (lines 42, 51-56). -/
def initState (fileSizes : List Nat) (maxMemory maxCpus numTasks : Nat)
    (jobs : List JobState) : LoopState :=
  { jobs := jobs,
    stepsCompleted := List.replicate fileSizes.length 0,
    availableCpus := maxCpus,
    availableMem := maxMemory,
    schedule := [],
    remaining := (numTasks * fileSizes.length : Nat),
    makespan := .fin 0,
    t := .fin 0 }

/-- The observable outcome of `calc_makespan`: a raised exception
propagating out of job construction, the `-1` sentinel, a returned
makespan, or (fuel exhaustion of the model only) divergence. -/
inductive CalcResult where
  | raised : CalcResult
  | sentinel : CalcResult
  | diverge : CalcResult
  | ok : ETime → CalcResult
deriving DecidableEq, Repr

/-- The state of the simulation just before the event loop would start,
when both validations pass and job construction raises nothing;
`none` otherwise. -/
def simInit (fileSizes : List Nat) (maxMemory maxCpus : Nat)
    (tasks : List PipelineTask) : Option LoopState :=
  let sorted := sortTasks tasks
  if validSteps sorted then
    match buildJobs fileSizes sorted with
    | some jobs =>
      if anyInfeasible maxMemory maxCpus jobs then none
      else some (initState fileSizes maxMemory maxCpus tasks.length jobs)
    | none => none
  else none

/-- `calc_makespan(file_sizes, max_memory, max_cpus, tasks)`.  The
second component is the task list as the function leaves it for the
caller (Python sorts the caller's list in place at line 32). -/
def calcMakespan (fileSizes : List Nat) (maxMemory maxCpus : Nat)
    (tasks : List PipelineTask) : CalcResult × List PipelineTask :=
  let sorted := sortTasks tasks
  if validSteps sorted then
    match buildJobs fileSizes sorted with
    | some jobs =>
      if anyInfeasible maxMemory maxCpus jobs then (.sentinel, sorted)
      else
        match runLoop (4 * jobs.length + 4)
            (initState fileSizes maxMemory maxCpus tasks.length jobs) with
        | some s => (.ok s.makespan, sorted)
        | none => (.diverge, sorted)
    | none => (.raised, sorted)
  else (.sentinel, sorted)

/-- Total cpu demand of the currently running jobs. -/
def runningCpus (l : List JobState) : Nat :=
  (l.map fun j => if j.isRunning then j.cpus else 0).sum

/-- Total memory demand of the currently running jobs. -/
def runningMem (l : List JobState) : Nat :=
  (l.map fun j => if j.isRunning then j.memory else 0).sum

/-! ### Helper lemmas -/

theorem foldl_induct {α β : Type _} (f : β → α → β) (P : β → Prop)
    (h : ∀ b a, P b → P (f b a)) : ∀ (l : List α) (b : β), P b → P (l.foldl f b) := by
  intro l
  induction l with
  | nil => intro b hb; exact hb
  | cons a l ih => intro b hb; exact ih _ (h _ _ hb)

theorem ETime.ble_inf (t : ETime) : ETime.ble t ETime.inf = true := by
  cases t <;> rfl

theorem ETime.ble_of_blt {a b : ETime} (h : ETime.blt a b = true) :
    ETime.ble a b = true := by
  cases a <;> cases b <;> simp_all [ETime.blt, ETime.ble, Nat.blt_eq, Nat.ble_eq] <;> omega

theorem ETime.ble_emin {t a b : ETime} (ha : ETime.ble t a = true)
    (hb : ETime.ble t b = true) : ETime.ble t (ETime.emin a b) = true := by
  unfold ETime.emin
  split <;> assumption

theorem ETime.ble_addNat (t : ETime) (d : Nat) :
    ETime.ble t (ETime.addNat t d) = true := by
  cases t <;> simp [ETime.addNat, ETime.ble, Nat.ble_eq]

theorem buildJobs_nil_sizes : ∀ ts : List PipelineTask, buildJobs [] ts = some [] := by
  intro ts
  induction ts with
  | nil => rfl
  | cons t rest ih => simp [buildJobs, buildRowFrom, ih]

theorem buildRowFrom_none_of_cpu_zero (t : PipelineTask) (i : Nat) (fs : List Nat)
    (hc : t.cpus = 0) (hpf : t.parallelFunc = defaultParallelFunc) (hfs : fs ≠ []) :
    buildRowFrom t i fs = none := by
  cases fs with
  | nil => exact absurd rfl hfs
  | cons sz rest => simp [buildRowFrom, hpf, hc, defaultParallelFunc]

theorem buildJobs_none_of_mem {t : PipelineTask} {ts : List PipelineTask}
    (hmem : t ∈ ts) (fs : List Nat) (hrow : buildRowFrom t 0 fs = none) :
    buildJobs fs ts = none := by
  induction ts with
  | nil => cases hmem
  | cons t' rest ih =>
    rcases List.mem_cons.mp hmem with h | h
    · subst h
      simp [buildJobs, hrow]
    · have := ih h
      simp only [buildJobs, this]
      cases buildRowFrom t' 0 fs <;> rfl

theorem runLoop_done {s : LoopState} (h : s.remaining ≤ 0) :
    ∀ n, runLoop n s = some s := by
  intro n
  cases n with
  | zero => simp [runLoop, h]
  | succ n => simp [runLoop, h]

theorem calc_run_char (fs : List Nat) (mm mc : Nat) (ts : List PipelineTask)
    (jobs : List JobState) (s' : LoopState)
    (hv : validSteps (sortTasks ts) = true)
    (hb : buildJobs fs (sortTasks ts) = some jobs)
    (ha : anyInfeasible mm mc jobs = false)
    (hr : runLoop (4 * jobs.length + 4) (initState fs mm mc ts.length jobs) = some s') :
    (calcMakespan fs mm mc ts).1 = CalcResult.ok s'.makespan := by
  simp [calcMakespan, hv, hb, ha, hr]

/-! ### Concrete inputs used by the counterexamples -/

/-- A task with the default duration function. -/
def mkTask (st tf sf c : Nat) : PipelineTask :=
  { name := "", step := st, timeFactor := tf, spaceFactor := sf, cpus := c,
    parallelFunc := defaultParallelFunc }

/-- Two unit tasks; with a single size-0 sample every duration is 0. -/
def tasksA : List PipelineTask := [mkTask 0 1 1 1, mkTask 1 1 1 1]

/-- Three unit tasks; with a single size-0 sample every duration is 0. -/
def tasksB : List PipelineTask := [mkTask 0 1 1 1, mkTask 1 1 1 1, mkTask 2 1 1 1]

/-- Three tasks whose durations for a size-1 sample are 0, 5 and 5. -/
def tasksC : List PipelineTask := [mkTask 0 0 1 1, mkTask 1 5 1 1, mkTask 2 5 1 1]

/-- A step-0 task with `cpuCount = 0`, the default duration function and
a large space factor. -/
def taskZ : PipelineTask := mkTask 0 1 100 0

/-! ### Claim theorems -/

/-- Claim C1 (code_bug): with a zero-size sample and three stages (all
durations 0), the run ends with `num_remaining_jobs = 0` and
`steps_completed = 3` for the only sample, although its stage-2 job was
never admitted (`startTime = none`): the retire scan lacks an
`is_running` guard, so the stage-0 job is retired twice at clock 0,
`steps_completed` skips past stage 2, the dependent job is never
admitted, and the function still returns.  This contradicts the claim
that resources are freed and `stepsCompleted` advanced exactly once per
zero-duration job and that every dependent stage job is eventually
admitted. -/
theorem zero_duration_double_retire_bug :
    (simInit [0] 1 1 tasksB).map (fun s =>
      ((iterLoop 3 s).remaining, (iterLoop 3 s).stepsCompleted,
        ((iterLoop 3 s).jobs.get? 2).map (fun j => j.startTime)))
      = some (0, [3], some none) ∧
    (calcMakespan [0] 1 1 tasksB).1 = CalcResult.ok (ETime.fin 0) := by
  exact ⟨rfl, rfl⟩

/-- Claim C2 (code_bug): with a zero-size sample and two stages, the
third loop iteration starts with `num_remaining_jobs = 1 > 0`, and at
the boundary after its retire phase `availableCpus = 2` while no job is
running and `maxCpus = 1`: the conservation equation
`availableCpus + Σ cpuDemand(running) = maxCpus` fails (the stage-0 job
was retired a second time, returning its resources again). -/
theorem resource_conservation_violated :
    (simInit [0] 1 1 tasksA).map (fun s =>
      ((iterLoop 2 s).remaining,
        (retirePhase (iterLoop 2 s)).1.availableCpus,
        runningCpus (retirePhase (iterLoop 2 s)).1.jobs,
        (retirePhase (iterLoop 2 s)).1.availableMem,
        runningMem (retirePhase (iterLoop 2 s)).1.jobs))
      = some (1, 2, 0, 1, 0) := by
  exact rfl

/-- Claim C3 (code_bug): with a zero-size sample and three stages the
function returns makespan 0, although the stage-2 job is never admitted
and never receives an `endTime` (`endTime = none` in the final state,
reached after three iterations when `num_remaining_jobs` hits 0): the
returned value is not the maximum `endTime` over all
`numSamples × numTasks` jobs, because not every job of the matrix is
admitted. -/
theorem makespan_unadmitted_job_bug :
    (calcMakespan [0] 1 1 tasksB).1 = CalcResult.ok (ETime.fin 0) ∧
    (simInit [0] 1 1 tasksB).map (fun s =>
      ((iterLoop 3 s).remaining,
        ((iterLoop 3 s).jobs.get? 2).map (fun j => (j.step, j.sampleIdx, j.endTime))))
      = some (0, some (2, 0, none)) := by
  exact ⟨rfl, rfl⟩

/-- Claim C4, counterexample: with a zero-size sample and two stages the
virtual clock takes the value 0 in two successive iterations while the
loop guard still holds (`remaining = 2 > 0` both before and after the
first iteration), so the successive values of `t` are not strictly
increasing. -/
theorem clock_value_repeats :
    (simInit [0] 1 1 tasksA).map (fun s =>
      (s.t, s.remaining, (loopIter s).t, (loopIter s).remaining))
      = some (ETime.fin 0, 2, ETime.fin 0, 2) := by
  exact rfl

/-- Claim C4, amended: across any iteration of the event loop the
virtual clock never decreases (every candidate next-event time is at
least the current clock); strict increase fails exactly when a
zero-duration job is admitted at the current clock. -/
theorem clock_nondecreasing (s : LoopState) :
    ETime.ble s.t (loopIter s).t = true := by
  have hP : ∀ acc : LoopState × ETime, (acc.1.t = s.t ∧ ETime.ble s.t acc.2 = true) →
      ∀ i, ((retireStep acc i).1.t = s.t ∧ ETime.ble s.t (retireStep acc i).2 = true) := by
    intro acc h i
    obtain ⟨ht, hnt⟩ := h
    cases hj : acc.1.jobs.get? i with
    | none => simp only [retireStep, hj]; exact ⟨ht, hnt⟩
    | some j =>
      simp only [retireStep, hj]
      split
      · exact ⟨ht, hnt⟩
      · cases he : j.endTime with
        | none => exact ⟨ht, hnt⟩
        | some e =>
          simp only [he]
          split
          · rename_i hlt
            refine ⟨ht, ETime.ble_emin hnt ?_⟩
            have hb : ETime.blt acc.1.t e = true := ((Bool.and_eq_true _ _).mp hlt).1
            rw [ht] at hb
            exact ETime.ble_of_blt hb
          · exact ⟨ht, hnt⟩
  have hQ : ∀ acc : LoopState × ETime, (acc.1.t = s.t ∧ ETime.ble s.t acc.2 = true) →
      ∀ i, ((admitStep acc i).1.t = s.t ∧ ETime.ble s.t (admitStep acc i).2 = true) := by
    intro acc h i
    obtain ⟨ht, hnt⟩ := h
    cases hj : acc.1.jobs.get? i with
    | none => simp only [admitStep, hj]; exact ⟨ht, hnt⟩
    | some j =>
      simp only [admitStep, hj]
      split
      · exact ⟨ht, hnt⟩
      split
      · exact ⟨ht, hnt⟩
      split
      · exact ⟨ht, hnt⟩
      split
      · exact ⟨ht, hnt⟩
      refine ⟨ht, ETime.ble_emin hnt ?_⟩
      rw [ht]
      exact ETime.ble_addNat s.t j.duration
  have hr : (retirePhase s).1.t = s.t ∧ ETime.ble s.t (retirePhase s).2 = true := by
    unfold retirePhase
    exact foldl_induct retireStep _ (fun b a hb => hP b hb a) s.schedule (s, ETime.inf)
      ⟨rfl, ETime.ble_inf s.t⟩
  have ha : (admitPhase (retirePhase s).1 (retirePhase s).2).1.t = s.t ∧
      ETime.ble s.t (admitPhase (retirePhase s).1 (retirePhase s).2).2 = true := by
    unfold admitPhase
    exact foldl_induct admitStep _ (fun b a hb => hQ b hb a) _ _ hr
  show ETime.ble s.t (loopIter s).t = true
  unfold loopIter
  exact ha.2

/-- Claim C5 (code_bug): with samples of sizes 1 and 0 and stage
durations 0, 5, 5 for the size-1 sample, the stage-2 job of sample 0 is
admitted with `startTime = 0` while the stage-1 job of the same sample
is still running until `endTime = 5`: the duplicated retirement of the
zero-duration stage-0 job bumps `steps_completed` a second time, making
the stage-2 job eligible early, so `startTime(stage 2) < endTime(stage 1)`
for the same sample.  The fourth loop iteration is really executed
(`remaining = 1 > 0` after three iterations). -/
theorem precedence_violated :
    (simInit [1, 0] 10 2 tasksC).map (fun s =>
      ((iterLoop 3 s).remaining,
        ((iterLoop 4 s).jobs.get? 4).map (fun j => (j.step, j.sampleIdx, j.startTime)),
        ((iterLoop 4 s).jobs.get? 2).map (fun j => (j.step, j.sampleIdx, j.endTime))))
      = some (1, some (2, 0, some (ETime.fin 0)), some (1, 0, some (ETime.fin 5))) ∧
    ETime.blt (ETime.fin 0) (ETime.fin 5) = true := by
  exact ⟨rfl, rfl⟩

/-- A pair `(sample size, task)` whose raw demand exceeds capacity:
the demand-based reading of InfeasibleJob, computable without
constructing any Job object. -/
def demandInfeasible (fileSizes : List Nat) (maxMemory maxCpus : Nat)
    (ts : List PipelineTask) : Bool :=
  ts.any fun t => fileSizes.any fun sz =>
    Nat.blt maxMemory (sz * t.spaceFactor) || Nat.blt maxCpus t.cpus

/-- Claim C6, counterexample: a single step-0 task with `cpuCount = 0`,
the default duration function and `spaceFactor = 100` on the size-1
sample: the step sequence is valid and the memory demand 100 exceeds
`maxMemory = 1` (so InfeasibleJob applies), yet the function does not
return the -1 sentinel: the unguarded division in the default duration
function raises during Job construction, before the feasibility check
can run. -/
theorem sentinel_iff_fails_on_raise :
    validSteps (sortTasks [taskZ]) = true ∧
    demandInfeasible [1] 1 1 [taskZ] = true ∧
    (calcMakespan [1] 1 1 [taskZ]).1 = CalcResult.raised := by
  exact ⟨rfl, rfl, rfl⟩

/-- Claim C6, amended: `calc_makespan` returns the -1 sentinel iff the
sorted step values are not exactly `0..N-1`, or Job construction
succeeds (no duration function raises) and some constructed Job's
`cpuDemand` exceeds `maxCpus` or `memoryDemand` exceeds `maxMemory`.
Both checks still happen before the simulation loop and the step check
still fires first; but when a duration function raises on an input with
a valid step sequence, the error propagates instead of -1, even if a
Job is also infeasible. -/
theorem sentinel_iff_amended (fs : List Nat) (mm mc : Nat) (ts : List PipelineTask) :
    (calcMakespan fs mm mc ts).1 = CalcResult.sentinel ↔
      (validSteps (sortTasks ts) = false ∨
        ∃ jobs, buildJobs fs (sortTasks ts) = some jobs ∧
          anyInfeasible mm mc jobs = true) := by
  by_cases hv : validSteps (sortTasks ts) = true
  · cases hb : buildJobs fs (sortTasks ts) with
    | none =>
      have hL : (calcMakespan fs mm mc ts).1 = CalcResult.raised := by
        simp [calcMakespan, hv, hb]
      constructor
      · intro h
        rw [hL] at h
        exact CalcResult.noConfusion h
      · rintro (h | ⟨jobs, hj, _⟩)
        · rw [hv] at h
          exact Bool.noConfusion h
        · exact Option.noConfusion hj
    | some jobs =>
      by_cases ha : anyInfeasible mm mc jobs = true
      · have hL : (calcMakespan fs mm mc ts).1 = CalcResult.sentinel := by
          simp [calcMakespan, hv, hb, ha]
        rw [hL]
        exact ⟨fun _ => Or.inr ⟨jobs, rfl, ha⟩, fun _ => rfl⟩
      · have ha' : anyInfeasible mm mc jobs = false := Bool.eq_false_iff.mpr ha
        constructor
        · intro h
          cases hr : runLoop (4 * jobs.length + 4) (initState fs mm mc ts.length jobs) with
          | some s =>
            have hL : (calcMakespan fs mm mc ts).1 = CalcResult.ok s.makespan := by
              simp [calcMakespan, hv, hb, ha', hr]
            rw [hL] at h
            exact CalcResult.noConfusion h
          | none =>
            have hL : (calcMakespan fs mm mc ts).1 = CalcResult.diverge := by
              simp [calcMakespan, hv, hb, ha', hr]
            rw [hL] at h
            exact CalcResult.noConfusion h
        · rintro (h | ⟨jobs2, hj2, ha2⟩)
          · rw [hv] at h
            exact Bool.noConfusion h
          · cases Option.some.inj hj2
            exact absurd ha2 ha
  · have hv' : validSteps (sortTasks ts) = false := Bool.eq_false_iff.mpr hv
    have hL : (calcMakespan fs mm mc ts).1 = CalcResult.sentinel := by
      simp [calcMakespan, hv']
    rw [hL]
    exact ⟨fun _ => Or.inl hv', fun _ => rfl⟩

instance : IsTotal PipelineTask (fun a b => a.step ≤ b.step) :=
  ⟨fun a b => Nat.le_total a.step b.step⟩

instance : IsTrans PipelineTask (fun a b => a.step ≤ b.step) :=
  ⟨fun _ _ _ hab hbc => Nat.le_trans hab hbc⟩

/-- Claim C8 (confirmed): on every input, the task list `calc_makespan`
leaves behind for the caller is the input list sorted in place by
ascending `step` (a permutation of the input, pairwise nondecreasing in
`step`), on every return path; in particular on an input with steps
`[2, 0]` the function returns the -1 sentinel and the caller's list has
observably changed order.  (`file_sizes`, `max_memory` and `max_cpus`
are plain values the function never rebinds.) -/
theorem tasks_sorted_side_effect (fs : List Nat) (mm mc : Nat) (ts : List PipelineTask) :
    (calcMakespan fs mm mc ts).2 = sortTasks ts ∧
    List.Pairwise (fun a b => a.step ≤ b.step) (calcMakespan fs mm mc ts).2 ∧
    List.Perm (calcMakespan fs mm mc ts).2 ts ∧
    (calcMakespan [0] 1 1 [mkTask 2 1 1 1, mkTask 0 1 1 1]).1 = CalcResult.sentinel ∧
    (calcMakespan [0] 1 1 [mkTask 2 1 1 1, mkTask 0 1 1 1]).2 ≠
      [mkTask 2 1 1 1, mkTask 0 1 1 1] := by
  have hsnd : (calcMakespan fs mm mc ts).2 = sortTasks ts := by
    simp only [calcMakespan]
    split
    · split
      · split
        · rfl
        · split <;> rfl
      · rfl
    · rfl
  refine ⟨hsnd, ?_, ?_, rfl, ?_⟩
  · rw [hsnd]
    exact List.sorted_insertionSort (fun a b => a.step ≤ b.step) ts
  · rw [hsnd]
    exact List.perm_insertionSort (fun a b => a.step ≤ b.step) ts
  · intro h
    have h0 : (calcMakespan [0] 1 1 [mkTask 2 1 1 1, mkTask 0 1 1 1]).2 =
        [mkTask 0 1 1 1, mkTask 2 1 1 1] := rfl
    rw [h0] at h
    have h1 : (mkTask 0 1 1 1).step = (mkTask 2 1 1 1).step := by
      rw [List.cons.injEq] at h
      rw [h.1]
    simp [mkTask] at h1

/-- Claim C9 (confirmed): on any input with at least one sample, a task
with `cpuCount = 0` and the default duration function, and a valid step
sequence, the unguarded integer division `size * timeFactor // cpuCount`
raises during Job construction, so `calc_makespan` propagates the error
instead of returning a makespan or the -1 sentinel. -/
theorem cpu_zero_raises (fs : List Nat) (mm mc : Nat) (ts : List PipelineTask)
    (t : PipelineTask) (hmem : t ∈ ts) (hc : t.cpus = 0)
    (hpf : t.parallelFunc = defaultParallelFunc) (hfs : fs ≠ [])
    (hv : validSteps (sortTasks ts) = true) :
    (calcMakespan fs mm mc ts).1 = CalcResult.raised := by
  have hmem' : t ∈ sortTasks ts := by
    unfold sortTasks
    exact ((List.perm_insertionSort (fun a b => a.step ≤ b.step) ts).mem_iff).mpr hmem
  have hrow : buildRowFrom t 0 fs = none :=
    buildRowFrom_none_of_cpu_zero t 0 fs hc hpf hfs
  have hb : buildJobs fs (sortTasks ts) = none :=
    buildJobs_none_of_mem hmem' fs hrow
  simp [calcMakespan, hv, hb]

/-- Witness for C9 at a concrete input: one size-1 sample and the
single task `taskZ` (step 0, `cpuCount = 0`, default duration
function). -/
theorem cpu_zero_raises_witness :
    taskZ ∈ [taskZ] ∧ taskZ.cpus = 0 ∧
    taskZ.parallelFunc = defaultParallelFunc ∧ ([1] : List Nat) ≠ [] ∧
    validSteps (sortTasks [taskZ]) = true ∧
    (calcMakespan [1] 10 10 [taskZ]).1 = CalcResult.raised := by
  refine ⟨List.mem_singleton.mpr rfl, rfl, rfl, by simp, rfl, ?_⟩
  exact cpu_zero_raises [1] 10 10 [taskZ] taskZ (List.mem_singleton.mpr rfl) rfl rfl
    (by simp) rfl

/-- Claim C10 (confirmed): when the task list is empty or the sample
list is empty (and the step sequence is valid, which is vacuous for an
empty task list), both validations pass over the degenerate job matrix,
`num_remaining_jobs` starts at 0, the event loop never runs, and
`calc_makespan` returns the initial makespan 0. -/
theorem empty_input_returns_zero (fs : List Nat) (mm mc : Nat) (ts : List PipelineTask)
    (h : ts = [] ∨ fs = []) (hv : validSteps (sortTasks ts) = true) :
    (calcMakespan fs mm mc ts).1 = CalcResult.ok (ETime.fin 0) := by
  rcases h with h | h
  · subst h
    exact calc_run_char fs mm mc [] [] (initState fs mm mc 0 []) rfl rfl rfl
      (runLoop_done (by simp [initState]) _)
  · subst h
    exact calc_run_char [] mm mc ts [] (initState [] mm mc ts.length []) hv
      (buildJobs_nil_sizes (sortTasks ts)) rfl
      (runLoop_done (by simp [initState]) _)

/-- Witness for C10 at concrete inputs: no tasks with two samples, and
one task with no samples. -/
theorem empty_input_returns_zero_witness :
    (calcMakespan [3, 4] 5 5 ([] : List PipelineTask)).1 = CalcResult.ok (ETime.fin 0) ∧
    (calcMakespan ([] : List Nat) 5 5 [mkTask 0 1 1 1]).1 = CalcResult.ok (ETime.fin 0) := by
  constructor
  · exact empty_input_returns_zero [3, 4] 5 5 [] (Or.inl rfl) rfl
  · exact empty_input_returns_zero [] 5 5 [mkTask 0 1 1 1] (Or.inr rfl) rfl

/-! ### Toolbox for the termination proof -/

theorem lt_length_of_get?_some {α : Type _} {l : List α} {i : Nat} {a : α}
    (h : l.get? i = some a) : i < l.length := by
  by_contra hc
  push_neg at hc
  rw [List.get?_eq_none.mpr hc] at h
  cases h

theorem sum_set_nat (l : List Nat) (i : Nat) (x : Nat) (h : i < l.length) :
    (l.set i x).sum + l.getD i 0 = l.sum + x := by
  induction l generalizing i with
  | nil => cases h
  | cons a l ih =>
    cases i with
    | zero => simp [List.set, List.getD]; omega
    | succ i =>
      have h' : i < l.length := by simpa using h
      have := ih i h'
      simp [List.set, List.getD] at *
      omega

theorem getD_set_self (l : List Nat) (i x : Nat) (h : i < l.length) :
    (l.set i x).getD i 0 = x := by
  induction l generalizing i with
  | nil => cases h
  | cons a l ih =>
    cases i with
    | zero => rfl
    | succ i => exact ih i (by simpa using h)

theorem getD_set_ne (l : List Nat) (i k x : Nat) (h : i ≠ k) :
    (l.set i x).getD k 0 = l.getD k 0 := by
  induction l generalizing i k with
  | nil => rfl
  | cons a l ih =>
    cases i with
    | zero =>
      cases k with
      | zero => exact absurd rfl h
      | succ k => rfl
    | succ i =>
      cases k with
      | zero => rfl
      | succ k => exact ih i k fun hh => h (by rw [hh])

theorem mapSum_set {α : Type _} (f : α → Nat) (l : List α) (i : Nat) (a b : α)
    (h : l.get? i = some a) :
    ((l.set i b).map f).sum + f a = (l.map f).sum + f b := by
  induction l generalizing i with
  | nil => cases h
  | cons c l ih =>
    cases i with
    | zero =>
      have hca : c = a := by simpa using h
      simp only [List.set_cons_zero, List.map_cons, List.sum_cons, hca]
      omega
    | succ i =>
      have h' : l.get? i = some a := by simpa using h
      have hih := ih i h'
      simp only [List.set_cons_succ, List.map_cons, List.sum_cons]
      omega

/-- Number of ever-admitted jobs (jobs whose `startTime` has been set). -/
def admittedCount (l : List JobState) : Nat :=
  (l.map fun j => if j.startTime.isSome then 1 else 0).sum

theorem ETime.ble_refl (a : ETime) : ETime.ble a a = true := by
  cases a <;> simp [ETime.ble, Nat.ble_eq]

theorem ETime.ble_trans {a b c : ETime} (h1 : ETime.ble a b = true)
    (h2 : ETime.ble b c = true) : ETime.ble a c = true := by
  cases a <;> cases b <;> cases c <;> simp_all [ETime.ble, Nat.ble_eq] <;> omega

theorem ETime.emin_ble_left (a b : ETime) : ETime.ble (ETime.emin a b) a = true := by
  unfold ETime.emin
  split
  · exact ETime.ble_refl a
  · rename_i h
    cases a <;> cases b <;> simp_all [ETime.ble, Nat.ble_eq] <;> omega

theorem ETime.emin_ble_right (a b : ETime) : ETime.ble (ETime.emin a b) b = true := by
  unfold ETime.emin
  split
  · assumption
  · exact ETime.ble_refl b

theorem ETime.blt_of_ble_ne {a b : ETime} (h1 : ETime.ble a b = true) (h2 : a ≠ b) :
    ETime.blt a b = true := by
  cases a <;> cases b <;> simp_all [ETime.ble, ETime.blt, Nat.ble_eq, Nat.blt_eq] <;> omega

/-- The job the retire scan removes at one entry: not running, resources
returned, its sample's counter bumped, `num_remaining_jobs` down one. -/
def retireResult (s : LoopState) (idx : Nat) (j : JobState) : LoopState :=
  { s with
      jobs := s.jobs.set idx { j with isRunning := false },
      availableCpus := s.availableCpus + j.cpus,
      availableMem := s.availableMem + j.memory,
      stepsCompleted :=
        s.stepsCompleted.set j.sampleIdx (s.stepsCompleted.getD j.sampleIdx 0 + 1),
      remaining := s.remaining - 1 }

/-- The state after one admission: the job running with its start and
end times set, resources deducted, the makespan updated and the index
appended to the schedule. -/
def admitResult (s : LoopState) (idx : Nat) (j : JobState) : LoopState :=
  { s with
      jobs := s.jobs.set idx
        { j with isRunning := true, startTime := some s.t,
                 endTime := some (ETime.addNat s.t j.duration) },
      availableCpus := s.availableCpus - j.cpus,
      availableMem := s.availableMem - j.memory,
      makespan := ETime.emax s.makespan (ETime.addNat s.t j.duration),
      schedule := s.schedule ++ [idx] }

theorem retireStep_char (acc : LoopState × ETime) (i : Nat) :
    retireStep acc i = acc ∨
    (∃ j e, acc.1.jobs.get? i = some j ∧ j.endTime = some e ∧ j.isRunning = true ∧
      ETime.blt acc.1.t e = true ∧ j.endTime ≠ some acc.1.t ∧
      retireStep acc i = (acc.1, ETime.emin acc.2 e)) ∨
    (∃ j, acc.1.jobs.get? i = some j ∧ j.endTime = some acc.1.t ∧
      retireStep acc i = (retireResult acc.1 i j, acc.2)) := by
  cases hj : acc.1.jobs.get? i with
  | none =>
    left
    simp only [retireStep, hj]
  | some j =>
    simp only [retireStep, hj]
    split
    · rename_i he
      right; right
      exact ⟨j, rfl, he, rfl⟩
    · rename_i he
      cases hee : j.endTime with
      | none =>
        left
        simp only [hee]
      | some e =>
        simp only [hee]
        split
        · rename_i hcond
          have hb := (Bool.and_eq_true _ _).mp hcond
          right; left
          exact ⟨j, e, rfl, hee, hb.2, hb.1, he, rfl⟩
        · left
          rfl

theorem admitStep_char (acc : LoopState × ETime) (i : Nat) :
    admitStep acc i = acc ∨
    (∃ j, acc.1.jobs.get? i = some j ∧ j.isRunning = false ∧
      acc.1.stepsCompleted.getD j.sampleIdx 0 = j.step ∧
      j.cpus ≤ acc.1.availableCpus ∧ j.memory ≤ acc.1.availableMem ∧
      admitStep acc i =
        (admitResult acc.1 i j, ETime.emin acc.2 (ETime.addNat acc.1.t j.duration))) := by
  cases hj : acc.1.jobs.get? i with
  | none =>
    left
    simp only [admitStep, hj]
  | some j =>
    simp only [admitStep, hj]
    split
    · left; rfl
    split
    · left; rfl
    split
    · left; rfl
    split
    · left; rfl
    rename_i hrun hsc hcpu hmem2
    right
    exact ⟨j, rfl, Bool.eq_false_iff.mpr hrun, Classical.not_not.mp hsc,
      Nat.le_of_not_lt hcpu, Nat.le_of_not_lt hmem2, rfl⟩

/-- The inductive invariant of the event loop, parameterized by the
machine capacities `mc`/`mm` and the matrix dimensions `nT` tasks and
`nS` samples:

* the lengths of `stepsCompleted` and `jobs` are fixed;
* `remaining = nT*nS - Σ stepsCompleted` (each retirement event, genuine
  or duplicated, decrements the counter and bumps one sample entry);
* every job is individually feasible and indexes into the matrix;
* every cell `(step, sample)` of the matrix is populated;
* running jobs are recorded in `schedule`, have an end time at least the
  current clock, and their sample counter has reached their step;
* a job that ever started and is no longer running has pushed its
  sample's counter strictly past its step;
* the free pools underestimate capacity minus the running demand (an
  inequality, because the buggy retire scan can free resources twice). -/
structure InvCore (mc mm nT nS : Nat) (s : LoopState) : Prop where
  sc_len : s.stepsCompleted.length = nS
  jobs_count : s.jobs.length = nT * nS
  rem_eq : s.remaining = (nT * nS : Nat) - (s.stepsCompleted.sum : Int)
  static : ∀ j ∈ s.jobs, j.cpus ≤ mc ∧ j.memory ≤ mm ∧ j.sampleIdx < nS ∧ j.step < nT
  complete : ∀ p, p < nS → ∀ k, k < nT →
    ∃ i j, s.jobs.get? i = some j ∧ j.step = k ∧ j.sampleIdx = p
  run_sched : ∀ i j, s.jobs.get? i = some j → j.isRunning = true → i ∈ s.schedule
  run_end : ∀ j ∈ s.jobs, j.isRunning = true →
    ∃ e, j.endTime = some e ∧ ETime.ble s.t e = true
  sc_run : ∀ j ∈ s.jobs, j.isRunning = true →
    j.step ≤ s.stepsCompleted.getD j.sampleIdx 0
  sc_done : ∀ j ∈ s.jobs, j.startTime ≠ none → j.isRunning = false →
    j.step < s.stepsCompleted.getD j.sampleIdx 0
  res_c : mc ≤ s.availableCpus + runningCpus s.jobs
  res_m : mm ≤ s.availableMem + runningMem s.jobs

theorem ETime.eq_inf_of_ble_inf {e : ETime} (h : ETime.ble ETime.inf e = true) :
    e = ETime.inf := by
  cases e with
  | fin n => cases h
  | inf => rfl

theorem ETime.emin_cases (a b : ETime) : ETime.emin a b = a ∨ ETime.emin a b = b := by
  unfold ETime.emin
  split
  · exact Or.inl rfl
  · exact Or.inr rfl

theorem admittedCount_le_length (l : List JobState) : admittedCount l ≤ l.length := by
  induction l with
  | nil => simp [admittedCount]
  | cons j l ih =>
    simp only [admittedCount, List.map_cons, List.sum_cons, List.length_cons] at *
    split <;> omega

theorem runningCpus_eq_zero (l : List JobState) (h : ∀ j ∈ l, j.isRunning = false) :
    runningCpus l = 0 := by
  induction l with
  | nil => rfl
  | cons j l ih =>
    have hj := h j (List.mem_cons_self j l)
    have ht := ih fun j2 h2 => h j2 (List.mem_cons_of_mem j h2)
    simp only [runningCpus, List.map_cons, List.sum_cons, hj, Bool.false_eq_true,
      if_false] at *
    omega

theorem runningMem_eq_zero (l : List JobState) (h : ∀ j ∈ l, j.isRunning = false) :
    runningMem l = 0 := by
  induction l with
  | nil => rfl
  | cons j l ih =>
    have hj := h j (List.mem_cons_self j l)
    have ht := ih fun j2 h2 => h j2 (List.mem_cons_of_mem j h2)
    simp only [runningMem, List.map_cons, List.sum_cons, hj, Bool.false_eq_true,
      if_false] at *
    omega

theorem runningCpus_set (l : List JobState) (i : Nat) (a b : JobState)
    (h : l.get? i = some a) :
    runningCpus (l.set i b) + (if a.isRunning then a.cpus else 0)
      = runningCpus l + (if b.isRunning then b.cpus else 0) :=
  mapSum_set _ l i a b h

theorem runningMem_set (l : List JobState) (i : Nat) (a b : JobState)
    (h : l.get? i = some a) :
    runningMem (l.set i b) + (if a.isRunning then a.memory else 0)
      = runningMem l + (if b.isRunning then b.memory else 0) :=
  mapSum_set _ l i a b h

theorem admittedCount_set (l : List JobState) (i : Nat) (a b : JobState)
    (h : l.get? i = some a) :
    admittedCount (l.set i b) + (if a.startTime.isSome then 1 else 0)
      = admittedCount l + (if b.startTime.isSome then 1 else 0) :=
  mapSum_set _ l i a b h

theorem retireResult_inv {mc mm nT nS : Nat} {s : LoopState}
    (hI : InvCore mc mm nT nS s) {i : Nat} {j : JobState}
    (hj : s.jobs.get? i = some j) :
    InvCore mc mm nT nS (retireResult s i j) := by
  have hmem : j ∈ s.jobs := List.get?_mem hj
  have hstat := hI.static j hmem
  have hlen : i < s.jobs.length := lt_length_of_get?_some hj
  have hq : j.sampleIdx < s.stepsCompleted.length := by
    rw [hI.sc_len]
    exact hstat.2.2.1
  refine ⟨?_, ?_, ?_, ?_, ?_, ?_, ?_, ?_, ?_, ?_, ?_⟩
  · simp [retireResult, hI.sc_len]
  · simp [retireResult, hI.jobs_count]
  · have hsum : (s.stepsCompleted.set j.sampleIdx
        (s.stepsCompleted.getD j.sampleIdx 0 + 1)).sum = s.stepsCompleted.sum + 1 := by
      have := sum_set_nat s.stepsCompleted j.sampleIdx
        (s.stepsCompleted.getD j.sampleIdx 0 + 1) hq
      omega
    simp only [retireResult]
    rw [hsum, hI.rem_eq]
    push_cast
    ring
  · intro j2 h2
    simp only [retireResult] at h2
    rcases List.mem_or_eq_of_mem_set h2 with h2 | h2
    · exact hI.static j2 h2
    · subst h2
      exact hstat
  · intro p hp k hk
    obtain ⟨i0, j0, h0, hs0, hp0⟩ := hI.complete p hp k hk
    by_cases hii : i0 = i
    · subst hii
      have hj0 : j0 = j := by
        rw [h0] at hj
        exact Option.some.inj hj
      subst hj0
      refine ⟨i0, { j0 with isRunning := false }, ?_, hs0, hp0⟩
      simp only [retireResult]
      exact List.get?_set_eq_of_lt _ hlen
    · refine ⟨i0, j0, ?_, hs0, hp0⟩
      simp only [retireResult]
      rw [List.get?_set_ne _ _ fun hh => hii hh.symm]
      exact h0
  · intro i2 j2 h2 hr
    simp only [retireResult] at h2 ⊢
    by_cases hii : i2 = i
    · subst hii
      rw [List.get?_set_eq_of_lt _ hlen] at h2
      have : j2 = { j with isRunning := false } := (Option.some.inj h2).symm
      subst this
      exact Bool.noConfusion hr
    · rw [List.get?_set_ne _ _ fun hh => hii hh.symm] at h2
      exact hI.run_sched i2 j2 h2 hr
  · intro j2 h2 hr
    simp only [retireResult] at h2
    rcases List.mem_or_eq_of_mem_set h2 with h2 | h2
    · exact hI.run_end j2 h2 hr
    · subst h2
      exact Bool.noConfusion hr
  · intro j2 h2 hr
    simp only [retireResult] at h2 ⊢
    rcases List.mem_or_eq_of_mem_set h2 with h2 | h2
    · have hold := hI.sc_run j2 h2 hr
      by_cases hpq : j2.sampleIdx = j.sampleIdx
      · rw [hpq, getD_set_self _ _ _ hq]
        rw [hpq] at hold
        omega
      · rw [getD_set_ne _ _ _ _ fun hh => hpq hh.symm]
        exact hold
    · subst h2
      exact Bool.noConfusion hr
  · intro j2 h2 hst hnr
    simp only [retireResult] at h2 ⊢
    rcases List.mem_or_eq_of_mem_set h2 with h2 | h2
    · have hold := hI.sc_done j2 h2 hst hnr
      by_cases hpq : j2.sampleIdx = j.sampleIdx
      · rw [hpq, getD_set_self _ _ _ hq]
        rw [hpq] at hold
        omega
      · rw [getD_set_ne _ _ _ _ fun hh => hpq hh.symm]
        exact hold
    · subst h2
      have e1 : ({ j with isRunning := false } : JobState).step = j.step := rfl
      have e2 : ({ j with isRunning := false } : JobState).sampleIdx = j.sampleIdx := rfl
      rw [e1, e2, getD_set_self _ _ _ hq]
      by_cases hrj : j.isRunning = true
      · have := hI.sc_run j hmem hrj
        omega
      · have hst' : j.startTime ≠ none := hst
        have := hI.sc_done j hmem hst' (Bool.eq_false_iff.mpr hrj)
        omega
  · simp only [retireResult]
    have hms := runningCpus_set s.jobs i j { j with isRunning := false } hj
    have hfj' : (if ({ j with isRunning := false } : JobState).isRunning then
        ({ j with isRunning := false } : JobState).cpus else 0) = 0 := rfl
    rw [hfj'] at hms
    have hfj : (if j.isRunning then j.cpus else 0) ≤ j.cpus := by
      split <;> omega
    have hres := hI.res_c
    omega
  · simp only [retireResult]
    have hms := runningMem_set s.jobs i j { j with isRunning := false } hj
    have hfj' : (if ({ j with isRunning := false } : JobState).isRunning then
        ({ j with isRunning := false } : JobState).memory else 0) = 0 := rfl
    rw [hfj'] at hms
    have hfj : (if j.isRunning then j.memory else 0) ≤ j.memory := by
      split <;> omega
    have hres := hI.res_m
    omega

theorem admitResult_inv {mc mm nT nS : Nat} {s : LoopState}
    (hI : InvCore mc mm nT nS s) {i : Nat} {j : JobState}
    (hj : s.jobs.get? i = some j) (hrun : j.isRunning = false)
    (hsc : s.stepsCompleted.getD j.sampleIdx 0 = j.step)
    (hcpu : j.cpus ≤ s.availableCpus) (hmem2 : j.memory ≤ s.availableMem) :
    InvCore mc mm nT nS (admitResult s i j) := by
  have hmem : j ∈ s.jobs := List.get?_mem hj
  have hstat := hI.static j hmem
  have hlen : i < s.jobs.length := lt_length_of_get?_some hj
  refine ⟨?_, ?_, ?_, ?_, ?_, ?_, ?_, ?_, ?_, ?_, ?_⟩
  · simp [admitResult, hI.sc_len]
  · simp [admitResult, hI.jobs_count]
  · simp only [admitResult]
    exact hI.rem_eq
  · intro j2 h2
    simp only [admitResult] at h2
    rcases List.mem_or_eq_of_mem_set h2 with h2 | h2
    · exact hI.static j2 h2
    · subst h2
      exact hstat
  · intro p hp k hk
    obtain ⟨i0, j0, h0, hs0, hp0⟩ := hI.complete p hp k hk
    by_cases hii : i0 = i
    · subst hii
      have hj0 : j0 = j := by
        rw [h0] at hj
        exact Option.some.inj hj
      subst hj0
      refine ⟨i0, { j0 with isRunning := true, startTime := some s.t, endTime := some (ETime.addNat s.t j0.duration) }, ?_, hs0, hp0⟩
      simp only [admitResult]
      exact List.get?_set_eq_of_lt _ hlen
    · refine ⟨i0, j0, ?_, hs0, hp0⟩
      simp only [admitResult]
      rw [List.get?_set_ne _ _ fun hh => hii hh.symm]
      exact h0
  · intro i2 j2 h2 hr
    simp only [admitResult] at h2 ⊢
    by_cases hii : i2 = i
    · subst hii
      exact List.mem_append_right _ (List.mem_singleton.mpr rfl)
    · rw [List.get?_set_ne _ _ fun hh => hii hh.symm] at h2
      exact List.mem_append_left _ (hI.run_sched i2 j2 h2 hr)
  · intro j2 h2 hr
    simp only [admitResult] at h2
    rcases List.mem_or_eq_of_mem_set h2 with h2 | h2
    · exact hI.run_end j2 h2 hr
    · subst h2
      exact ⟨ETime.addNat s.t j.duration, rfl, ETime.ble_addNat s.t j.duration⟩
  · intro j2 h2 hr
    simp only [admitResult] at h2 ⊢
    rcases List.mem_or_eq_of_mem_set h2 with h2 | h2
    · exact hI.sc_run j2 h2 hr
    · subst h2
      exact Nat.le_of_eq hsc.symm
  · intro j2 h2 hst hnr
    simp only [admitResult] at h2 ⊢
    rcases List.mem_or_eq_of_mem_set h2 with h2 | h2
    · exact hI.sc_done j2 h2 hst hnr
    · subst h2
      exact Bool.noConfusion hnr
  · simp only [admitResult]
    have hms := runningCpus_set s.jobs i j
      { j with isRunning := true, startTime := some s.t,
               endTime := some (ETime.addNat s.t j.duration) } hj
    have hfj : (if j.isRunning then j.cpus else 0) = 0 := by
      rw [hrun]
      rfl
    have hfj' : (if ({ j with isRunning := true, startTime := some s.t, endTime := some (ETime.addNat s.t j.duration) } : JobState).isRunning then ({ j with isRunning := true, startTime := some s.t, endTime := some (ETime.addNat s.t j.duration) } : JobState).cpus else 0) = j.cpus := rfl
    rw [hfj, hfj'] at hms
    have hres := hI.res_c
    omega
  · simp only [admitResult]
    have hms := runningMem_set s.jobs i j
      { j with isRunning := true, startTime := some s.t,
               endTime := some (ETime.addNat s.t j.duration) } hj
    have hfj : (if j.isRunning then j.memory else 0) = 0 := by
      rw [hrun]
      rfl
    have hfj' : (if ({ j with isRunning := true, startTime := some s.t, endTime := some (ETime.addNat s.t j.duration) } : JobState).isRunning then ({ j with isRunning := true, startTime := some s.t, endTime := some (ETime.addNat s.t j.duration) } : JobState).memory else 0) = j.memory := rfl
    rw [hfj, hfj'] at hms
    have hres := hI.res_m
    omega

theorem retireStep_branches (acc : LoopState × ETime) (i : Nat) :
    (acc.1.jobs.get? i = none ∧ retireStep acc i = acc) ∨
    (∃ j, acc.1.jobs.get? i = some j ∧ j.endTime = some acc.1.t ∧
      retireStep acc i = (retireResult acc.1 i j, acc.2)) ∨
    (∃ j e, acc.1.jobs.get? i = some j ∧ j.endTime = some e ∧
      j.endTime ≠ some acc.1.t ∧ (ETime.blt acc.1.t e && j.isRunning) = true ∧
      retireStep acc i = (acc.1, ETime.emin acc.2 e)) ∨
    (∃ j, acc.1.jobs.get? i = some j ∧ j.endTime ≠ some acc.1.t ∧
      (∀ e, j.endTime = some e → (ETime.blt acc.1.t e && j.isRunning) = false) ∧
      retireStep acc i = acc) := by
  cases hj : acc.1.jobs.get? i with
  | none =>
    left
    refine ⟨rfl, ?_⟩
    simp only [retireStep, hj]
  | some j =>
    have hj2 : acc.1.jobs[i]? = some j := by
      rw [← List.get?_eq_getElem?]
      exact hj
    right
    by_cases he : j.endTime = some acc.1.t
    · left
      refine ⟨j, rfl, he, ?_⟩
      simp [retireStep, hj2, he, retireResult]
    · right
      cases hee : j.endTime with
      | none =>
        right
        refine ⟨j, rfl, he, fun e hee2 => ?_, ?_⟩
        · rw [hee] at hee2
          cases hee2
        · simp [retireStep, hj2, hee]
      | some e =>
        have hne : e ≠ acc.1.t := fun hx => he (by rw [hee, hx])
        by_cases hlt : (ETime.blt acc.1.t e && j.isRunning) = true
        · left
          refine ⟨j, e, rfl, hee, he, hlt, ?_⟩
          simp [retireStep, hj2, hee, hne, hlt]
        · right
          refine ⟨j, rfl, he, fun e2 hee2 => ?_, ?_⟩
          · rw [hee] at hee2
            cases Option.some.inj hee2
            exact Bool.eq_false_iff.mpr hlt
          · simp [retireStep, hj2, hee, hne, hlt]

theorem retireStep_inv {mc mm nT nS : Nat} {acc : LoopState × ETime}
    (hI : InvCore mc mm nT nS acc.1) (i : Nat) :
    InvCore mc mm nT nS (retireStep acc i).1 := by
  rcases retireStep_char acc i with h | ⟨j, e, _, _, _, _, _, h⟩ | ⟨j, hj, _, h⟩
  · rw [h]
    exact hI
  · rw [h]
    exact hI
  · rw [h]
    exact retireResult_inv hI hj

theorem admitStep_inv {mc mm nT nS : Nat} {acc : LoopState × ETime}
    (hI : InvCore mc mm nT nS acc.1) (i : Nat) :
    InvCore mc mm nT nS (admitStep acc i).1 := by
  rcases admitStep_char acc i with h | ⟨j, hj, hrun, hsc, hcpu, hmem2, h⟩
  · rw [h]
    exact hI
  · rw [h]
    exact admitResult_inv hI hj hrun hsc hcpu hmem2

theorem retireStep_t (acc : LoopState × ETime) (i : Nat) :
    (retireStep acc i).1.t = acc.1.t := by
  rcases retireStep_char acc i with h | ⟨j, e, _, _, _, _, _, h⟩ | ⟨j, _, _, h⟩ <;>
    rw [h] <;> rfl

theorem retireStep_schedule (acc : LoopState × ETime) (i : Nat) :
    (retireStep acc i).1.schedule = acc.1.schedule := by
  rcases retireStep_char acc i with h | ⟨j, e, _, _, _, _, _, h⟩ | ⟨j, _, _, h⟩ <;>
    rw [h] <;> rfl

theorem retireStep_remaining_le (acc : LoopState × ETime) (i : Nat) :
    (retireStep acc i).1.remaining ≤ acc.1.remaining := by
  rcases retireStep_char acc i with h | ⟨j, e, _, _, _, _, _, h⟩ | ⟨j, _, _, h⟩ <;>
    rw [h]
  show acc.1.remaining - 1 ≤ acc.1.remaining
  omega

theorem retireStep_admitted (acc : LoopState × ETime) (i : Nat) :
    admittedCount (retireStep acc i).1.jobs = admittedCount acc.1.jobs := by
  rcases retireStep_char acc i with h | ⟨j, e, _, _, _, _, _, h⟩ | ⟨j, hj, _, h⟩ <;>
    rw [h]
  have hms := admittedCount_set acc.1.jobs i j { j with isRunning := false } hj
  have heq : (if ({ j with isRunning := false } : JobState).startTime.isSome then 1 else 0)
      = (if j.startTime.isSome then 1 else 0) := rfl
  rw [heq] at hms
  show admittedCount (acc.1.jobs.set i { j with isRunning := false }) = admittedCount acc.1.jobs
  omega

theorem retireStep_eq_of_remaining_eq (acc : LoopState × ETime) (i : Nat)
    (h : (retireStep acc i).1.remaining = acc.1.remaining) :
    (retireStep acc i).1 = acc.1 := by
  rcases retireStep_char acc i with hc | ⟨j, e, _, _, _, _, _, hc⟩ | ⟨j, hj, _, hc⟩ <;>
    rw [hc]
  rw [hc] at h
  have hcon : acc.1.remaining - 1 = acc.1.remaining := h
  exact absurd hcon (by omega)

theorem retireStep_nt_ble (acc : LoopState × ETime) (i : Nat) :
    ETime.ble (retireStep acc i).2 acc.2 = true := by
  rcases retireStep_char acc i with h | ⟨j, e, _, _, _, _, _, h⟩ | ⟨j, _, _, h⟩ <;>
    rw [h]
  · exact ETime.ble_refl _
  · exact ETime.emin_ble_left _ _
  · exact ETime.ble_refl _

theorem admitStep_remaining (acc : LoopState × ETime) (i : Nat) :
    (admitStep acc i).1.remaining = acc.1.remaining := by
  rcases admitStep_char acc i with h | ⟨j, _, _, _, _, _, h⟩ <;> rw [h] <;> rfl

theorem admitStep_t (acc : LoopState × ETime) (i : Nat) :
    (admitStep acc i).1.t = acc.1.t := by
  rcases admitStep_char acc i with h | ⟨j, _, _, _, _, _, h⟩ <;> rw [h] <;> rfl

theorem admitStep_sched_len (acc : LoopState × ETime) (i : Nat) :
    acc.1.schedule.length ≤ (admitStep acc i).1.schedule.length := by
  rcases admitStep_char acc i with h | ⟨j, _, _, _, _, _, h⟩ <;> rw [h]
  simp [admitResult]

theorem admitStep_nt_ble (acc : LoopState × ETime) (i : Nat) :
    ETime.ble (admitStep acc i).2 acc.2 = true := by
  rcases admitStep_char acc i with h | ⟨j, _, _, _, _, _, h⟩ <;> rw [h]
  · exact ETime.ble_refl _
  · exact ETime.emin_ble_left _ _

theorem retirePhase_inv {mc mm nT nS : Nat} {s : LoopState}
    (hI : InvCore mc mm nT nS s) : InvCore mc mm nT nS (retirePhase s).1 :=
  foldl_induct retireStep (fun acc => InvCore mc mm nT nS acc.1)
    (fun b a hb => retireStep_inv hb a) s.schedule (s, ETime.inf) hI

theorem retirePhase_t (s : LoopState) : (retirePhase s).1.t = s.t :=
  foldl_induct retireStep (fun acc => acc.1.t = s.t)
    (fun b a hb => (retireStep_t b a).trans hb) s.schedule (s, ETime.inf) rfl

theorem retirePhase_schedule (s : LoopState) :
    (retirePhase s).1.schedule = s.schedule :=
  foldl_induct retireStep (fun acc => acc.1.schedule = s.schedule)
    (fun b a hb => (retireStep_schedule b a).trans hb) s.schedule (s, ETime.inf) rfl

theorem retirePhase_remaining_le (s : LoopState) :
    (retirePhase s).1.remaining ≤ s.remaining :=
  foldl_induct retireStep (fun acc => acc.1.remaining ≤ s.remaining)
    (fun b a hb => le_trans (retireStep_remaining_le b a) hb)
    s.schedule (s, ETime.inf) (le_refl _)

theorem retirePhase_admitted (s : LoopState) :
    admittedCount (retirePhase s).1.jobs = admittedCount s.jobs :=
  foldl_induct retireStep (fun acc => admittedCount acc.1.jobs = admittedCount s.jobs)
    (fun b a hb => (retireStep_admitted b a).trans hb) s.schedule (s, ETime.inf) rfl

theorem retirePhase_state_cases (s : LoopState) :
    (retirePhase s).1.remaining < s.remaining ∨ (retirePhase s).1 = s := by
  refine foldl_induct retireStep
    (fun acc => acc.1.remaining < s.remaining ∨ acc.1 = s) ?_ s.schedule
    (s, ETime.inf) (Or.inr rfl)
  intro b a hb
  rcases hb with hb | hb
  · exact Or.inl (lt_of_le_of_lt (retireStep_remaining_le b a) hb)
  · by_cases hr : (retireStep b a).1.remaining = b.1.remaining
    · right
      rw [retireStep_eq_of_remaining_eq b a hr, hb]
    · left
      have hbrem : b.1.remaining = s.remaining := by rw [hb]
      have hle := retireStep_remaining_le b a
      omega

theorem retirePhase_eq_of_remaining_eq (s : LoopState)
    (h : (retirePhase s).1.remaining = s.remaining) : (retirePhase s).1 = s := by
  rcases retirePhase_state_cases s with hc | hc
  · omega
  · exact hc

theorem retire_fold_q {mc mm nT nS : Nat} :
    ∀ (l : List Nat) (acc : LoopState × ETime),
      InvCore mc mm nT nS acc.1 →
      (∀ i j, acc.1.jobs.get? i = some j → j.isRunning = true →
        ∃ e, j.endTime = some e ∧
          (i ∈ l ∨ (ETime.ble acc.2 e = true ∧ j.endTime ≠ some acc.1.t))) →
      ∀ i j, (l.foldl retireStep acc).1.jobs.get? i = some j → j.isRunning = true →
        ∃ e, j.endTime = some e ∧ ETime.ble (l.foldl retireStep acc).2 e = true ∧
          j.endTime ≠ some (l.foldl retireStep acc).1.t := by
  intro l
  induction l with
  | nil =>
    intro acc hI hpre i j hj hr
    obtain ⟨e, he, hca⟩ := hpre i j hj hr
    rcases hca with hmem | ⟨hble, hne⟩
    · cases hmem
    · exact ⟨e, he, hble, hne⟩
  | cons a l ih =>
    intro acc hI hpre
    have hstep := retireStep_branches acc a
    refine ih (retireStep acc a) (retireStep_inv hI a) ?_
    intro i j hj hr
    rcases hstep with ⟨hnone, hcase⟩ | ⟨ja, hja, hea, hcase⟩ |
      ⟨ja, ea, hja, heaa, hnea, hlta, hcase⟩ | ⟨ja, hja, hnea, hcond, hcase⟩
    · rw [hcase] at hj
      obtain ⟨e, he, hca⟩ := hpre i j hj hr
      rcases hca with hmem | ⟨hble, hne⟩
      · rcases List.mem_cons.mp hmem with rfl | hmem2
        · rw [hnone] at hj
          cases hj
        · exact ⟨e, he, Or.inl hmem2⟩
      · rw [hcase]
        exact ⟨e, he, Or.inr ⟨hble, hne⟩⟩
    · rw [hcase] at hj
      by_cases hia : i = a
      · subst hia
        have hlen : i < acc.1.jobs.length := lt_length_of_get?_some hja
        rw [show (retireResult acc.1 i ja, acc.2).1.jobs
            = acc.1.jobs.set i { ja with isRunning := false } from rfl,
          List.get?_set_eq_of_lt _ hlen] at hj
        have hjj : j = { ja with isRunning := false } := (Option.some.inj hj).symm
        subst hjj
        exact Bool.noConfusion hr
      · rw [show (retireResult acc.1 a ja, acc.2).1.jobs
            = acc.1.jobs.set a { ja with isRunning := false } from rfl,
          List.get?_set_ne _ _ fun hh => hia hh.symm] at hj
        obtain ⟨e, he, hca⟩ := hpre i j hj hr
        rcases hca with hmem | ⟨hble, hne⟩
        · rcases List.mem_cons.mp hmem with rfl | hmem2
          · exact absurd rfl hia
          · exact ⟨e, he, Or.inl hmem2⟩
        · rw [hcase]
          exact ⟨e, he, Or.inr ⟨hble, hne⟩⟩
    · rw [hcase] at hj
      obtain ⟨e, he, hca⟩ := hpre i j hj hr
      rcases hca with hmem | ⟨hble, hne⟩
      · rcases List.mem_cons.mp hmem with rfl | hmem2
        · have hjj : j = ja := by
            rw [hj] at hja
            exact Option.some.inj hja
          subst hjj
          have hee : e = ea := by
            rw [he] at heaa
            exact Option.some.inj heaa
          subst hee
          rw [hcase]
          exact ⟨e, he, Or.inr ⟨ETime.emin_ble_right _ _, hnea⟩⟩
        · exact ⟨e, he, Or.inl hmem2⟩
      · rw [hcase]
        exact ⟨e, he, Or.inr ⟨ETime.ble_trans (ETime.emin_ble_left _ _) hble, hne⟩⟩
    · rw [hcase] at hj
      obtain ⟨e, he, hca⟩ := hpre i j hj hr
      rcases hca with hmem | ⟨hble, hne⟩
      · rcases List.mem_cons.mp hmem with rfl | hmem2
        · have hjj : j = ja := by
            rw [hj] at hja
            exact Option.some.inj hja
          subst hjj
          obtain ⟨e2, he2, hble2⟩ := hI.run_end j (List.get?_mem hj) hr
          have hne2 : e2 ≠ acc.1.t := fun hx => hnea (by rw [he2, hx])
          have hblt : ETime.blt acc.1.t e2 = true :=
            ETime.blt_of_ble_ne hble2 fun hx => hne2 hx.symm
          have hcc := hcond e2 he2
          simp [hblt, hr] at hcc
        · exact ⟨e, he, Or.inl hmem2⟩
      · rw [hcase]
        exact ⟨e, he, Or.inr ⟨hble, hne⟩⟩

theorem retire_fold_remaining_le : ∀ (l : List Nat) (acc : LoopState × ETime),
    (l.foldl retireStep acc).1.remaining ≤ acc.1.remaining := by
  intro l
  induction l with
  | nil => intro acc; exact le_refl _
  | cons a l ih =>
    intro acc
    exact le_trans (ih (retireStep acc a)) (retireStep_remaining_le acc a)

theorem retire_fold_fires : ∀ (l : List Nat) (acc : LoopState × ETime) (i : Nat),
    i ∈ l → (∃ j, acc.1.jobs.get? i = some j ∧ j.endTime = some acc.1.t) →
    (l.foldl retireStep acc).1.remaining < acc.1.remaining := by
  intro l
  induction l with
  | nil =>
    intro acc i h _
    cases h
  | cons a l ih =>
    intro acc i hmem hw
    obtain ⟨j, hj, he⟩ := hw
    have hfold : ((a :: l).foldl retireStep acc) = l.foldl retireStep (retireStep acc a) := rfl
    rw [hfold]
    rcases List.mem_cons.mp hmem with rfl | hmem2
    · rcases retireStep_branches acc i with ⟨hnone, _⟩ | ⟨ja, hja, _, hcase⟩ |
        ⟨ja, ea, hja, _, hnea, _, _⟩ | ⟨ja, hja, hnea, _, _⟩
      · rw [hnone] at hj
        cases hj
      · have h1 : (retireStep acc i).1.remaining = acc.1.remaining - 1 := by
          rw [hcase]
          rfl
        have hle := retire_fold_remaining_le l (retireStep acc i)
        omega
      · rw [hj] at hja
        cases Option.some.inj hja
        exact absurd he hnea
      · rw [hj] at hja
        cases Option.some.inj hja
        exact absurd he hnea
    · rcases retireStep_branches acc a with ⟨hnone, hcase⟩ | ⟨ja, hja, hea, hcase⟩ |
        ⟨ja, ea, hja, heaa, hnea, hlta, hcase⟩ | ⟨ja, hja, hnea, hcond, hcase⟩
      · have hrec := ih (retireStep acc a) i hmem2
          ⟨j, by rw [hcase]; exact hj, by rw [hcase]; exact he⟩
        have h1 : (retireStep acc a).1.remaining = acc.1.remaining := by rw [hcase]
        omega
      · have h1 : (retireStep acc a).1.remaining = acc.1.remaining - 1 := by
          rw [hcase]
          rfl
        have hle := retire_fold_remaining_le l (retireStep acc a)
        omega
      · have hrec := ih (retireStep acc a) i hmem2
          ⟨j, by rw [hcase]; exact hj, by rw [hcase]; exact he⟩
        have h1 : (retireStep acc a).1.remaining = acc.1.remaining := by rw [hcase]
        omega
      · have hrec := ih (retireStep acc a) i hmem2
          ⟨j, by rw [hcase]; exact hj, by rw [hcase]; exact he⟩
        have h1 : (retireStep acc a).1.remaining = acc.1.remaining := by rw [hcase]
        omega

theorem retire_fold_attain : ∀ (l : List Nat) (acc : LoopState × ETime),
    (l.foldl retireStep acc).1 = acc.1 →
    ((l.foldl retireStep acc).2 = acc.2 ∨
      ∃ i ∈ l, ∃ j e, acc.1.jobs.get? i = some j ∧ j.endTime = some e ∧
        (l.foldl retireStep acc).2 = e) := by
  intro l
  induction l with
  | nil =>
    intro acc _
    exact Or.inl rfl
  | cons a l ih =>
    intro acc hpres
    have hfold : ((a :: l).foldl retireStep acc) = l.foldl retireStep (retireStep acc a) := rfl
    rw [hfold] at hpres ⊢
    have hre : (l.foldl retireStep (retireStep acc a)).1.remaining = acc.1.remaining := by
      rw [hpres]
    have hfr := retire_fold_remaining_le l (retireStep acc a)
    have hsr := retireStep_remaining_le acc a
    have hstepeq : (retireStep acc a).1 = acc.1 :=
      retireStep_eq_of_remaining_eq acc a (by omega)
    have hpres2 : (l.foldl retireStep (retireStep acc a)).1 = (retireStep acc a).1 := by
      rw [hpres, hstepeq]
    rcases ih (retireStep acc a) hpres2 with h2 | ⟨i, hmem, j, e, hj, he, hval⟩
    · rcases retireStep_branches acc a with ⟨_, hcase⟩ | ⟨ja, hja, hea, hcase⟩ |
        ⟨ja, ea, hja, heaa, hnea, hlta, hcase⟩ | ⟨ja, _, _, _, hcase⟩
      · left
        rw [h2, hcase]
      · exfalso
        have h1 : (retireStep acc a).1.remaining = acc.1.remaining - 1 := by
          rw [hcase]
          rfl
        rw [hstepeq] at h1
        omega
      · rcases ETime.emin_cases acc.2 ea with hm | hm
        · left
          rw [h2, hcase]
          exact hm
        · right
          refine ⟨a, List.mem_cons_self a l, ja, ea, hja, heaa, ?_⟩
          rw [h2, hcase]
          exact hm
      · left
        rw [h2, hcase]
    · right
      rw [hstepeq] at hj
      exact ⟨i, List.mem_cons_of_mem a hmem, j, e, hj, he, hval⟩

theorem admit_fold_remaining : ∀ (l : List Nat) (acc : LoopState × ETime),
    (l.foldl admitStep acc).1.remaining = acc.1.remaining := by
  intro l
  induction l with
  | nil => intro acc; rfl
  | cons a l ih =>
    intro acc
    exact (ih (admitStep acc a)).trans (admitStep_remaining acc a)

theorem admit_fold_t : ∀ (l : List Nat) (acc : LoopState × ETime),
    (l.foldl admitStep acc).1.t = acc.1.t := by
  intro l
  induction l with
  | nil => intro acc; rfl
  | cons a l ih =>
    intro acc
    exact (ih (admitStep acc a)).trans (admitStep_t acc a)

theorem admit_fold_inv {mc mm nT nS : Nat} : ∀ (l : List Nat) (acc : LoopState × ETime),
    InvCore mc mm nT nS acc.1 → InvCore mc mm nT nS (l.foldl admitStep acc).1 := by
  intro l
  induction l with
  | nil => intro acc h; exact h
  | cons a l ih =>
    intro acc h
    exact ih (admitStep acc a) (admitStep_inv h a)

theorem admit_fold_len_mono : ∀ (l : List Nat) (acc : LoopState × ETime),
    acc.1.schedule.length ≤ (l.foldl admitStep acc).1.schedule.length := by
  intro l
  induction l with
  | nil => intro acc; exact le_refl _
  | cons a l ih =>
    intro acc
    exact le_trans (admitStep_sched_len acc a) (ih (admitStep acc a))

theorem admit_fold_state_cases : ∀ (l : List Nat) (acc : LoopState × ETime),
    l.foldl admitStep acc = acc ∨
      acc.1.schedule.length < (l.foldl admitStep acc).1.schedule.length := by
  intro l
  induction l with
  | nil => intro acc; exact Or.inl rfl
  | cons a l ih =>
    intro acc
    have hfold : ((a :: l).foldl admitStep acc) = l.foldl admitStep (admitStep acc a) := rfl
    rcases admitStep_char acc a with hc | ⟨j, _, _, _, _, _, hc⟩
    · rw [hfold, hc]
      exact ih acc
    · right
      have h1 : (admitStep acc a).1.schedule.length = acc.1.schedule.length + 1 := by
        rw [hc]
        simp [admitResult]
      have h2 := admit_fold_len_mono l (admitStep acc a)
      rw [hfold]
      omega

theorem admit_fold_noop : ∀ (l : List Nat) (acc : LoopState × ETime),
    l.foldl admitStep acc = acc → ∀ i ∈ l, admitStep acc i = acc := by
  intro l
  induction l with
  | nil =>
    intro acc _ i hi
    cases hi
  | cons a l ih =>
    intro acc h i hi
    have hfold : ((a :: l).foldl admitStep acc) = l.foldl admitStep (admitStep acc a) := rfl
    have hhead : admitStep acc a = acc := by
      rcases admitStep_char acc a with hc | ⟨j, _, _, _, _, _, hc⟩
      · exact hc
      · exfalso
        have h1 : (admitStep acc a).1.schedule.length = acc.1.schedule.length + 1 := by
          rw [hc]
          simp [admitResult]
        have h2 : ((a :: l).foldl admitStep acc).1.schedule.length
            = acc.1.schedule.length := by
          rw [h]
        rw [hfold] at h2
        have h3 := admit_fold_len_mono l (admitStep acc a)
        omega
    rcases List.mem_cons.mp hi with rfl | hi2
    · exact hhead
    · rw [hfold, hhead] at h
      exact ih acc h i hi2

theorem admit_noop_not_cond (acc : LoopState × ETime) (i : Nat) (j : JobState)
    (hj : acc.1.jobs.get? i = some j) (hrun : j.isRunning = false)
    (hsc : acc.1.stepsCompleted.getD j.sampleIdx 0 = j.step)
    (hcpu : j.cpus ≤ acc.1.availableCpus) (hmem2 : j.memory ≤ acc.1.availableMem)
    (hid : admitStep acc i = acc) : False := by
  have hc1 : ¬(j.isRunning = true) := by
    rw [hrun]
    exact Bool.false_ne_true
  have hc2 : ¬(acc.1.stepsCompleted.getD j.sampleIdx 0 ≠ j.step) := not_not_intro hsc
  have hc3 : ¬(acc.1.availableCpus < j.cpus) := Nat.not_lt.mpr hcpu
  have hc4 : ¬(acc.1.availableMem < j.memory) := Nat.not_lt.mpr hmem2
  have hcomp : admitStep acc i =
      (admitResult acc.1 i j, ETime.emin acc.2 (ETime.addNat acc.1.t j.duration)) := by
    simp only [admitStep, hj]
    rw [if_neg hc1, if_neg hc2, if_neg hc3, if_neg hc4]
    rfl
  rw [hcomp] at hid
  have hlen := congrArg (fun x : LoopState × ETime => x.1.schedule.length) hid
  simp [admitResult] at hlen

theorem admit_fold_count {mc mm nT nS : Nat} : ∀ (l : List Nat) (acc : LoopState × ETime),
    InvCore mc mm nT nS acc.1 →
    admittedCount (l.foldl admitStep acc).1.jobs + acc.1.schedule.length
      = admittedCount acc.1.jobs + (l.foldl admitStep acc).1.schedule.length := by
  intro l
  induction l with
  | nil => intro acc _; rfl
  | cons a l ih =>
    intro acc hI
    have hfold : ((a :: l).foldl admitStep acc) = l.foldl admitStep (admitStep acc a) := rfl
    rw [hfold]
    rcases admitStep_char acc a with hc | ⟨j, hj, hrun, hsc, _, _, hc⟩
    · rw [hc]
      exact ih acc hI
    · have hstart : j.startTime = none := by
        by_cases hs : j.startTime = none
        · exact hs
        · exfalso
          have h1 := hI.sc_done j (List.get?_mem hj) hs hrun
          omega
      have hcnt : admittedCount (admitStep acc a).1.jobs = admittedCount acc.1.jobs + 1 := by
        rw [hc]
        have hms := admittedCount_set acc.1.jobs a j
          { j with isRunning := true, startTime := some acc.1.t,
                   endTime := some (ETime.addNat acc.1.t j.duration) } hj
        have hf : (if j.startTime.isSome then 1 else 0) = 0 := by
          rw [hstart]
          rfl
        have hf' : (if ({ j with isRunning := true, startTime := some acc.1.t, endTime := some (ETime.addNat acc.1.t j.duration) } : JobState).startTime.isSome then 1 else 0) = 1 := rfl
        rw [hf, hf'] at hms
        show admittedCount (acc.1.jobs.set a { j with isRunning := true, startTime := some acc.1.t, endTime := some (ETime.addNat acc.1.t j.duration) }) = admittedCount acc.1.jobs + 1
        omega
      have hlen : (admitStep acc a).1.schedule.length = acc.1.schedule.length + 1 := by
        rw [hc]
        simp [admitResult]
      have hih := ih (admitStep acc a) (admitStep_inv hI a)
      omega

theorem admit_fold_q : ∀ (l : List Nat) (acc : LoopState × ETime),
    (∀ i j, acc.1.jobs.get? i = some j → j.isRunning = true →
      ∃ e, j.endTime = some e ∧ ETime.ble acc.2 e = true) →
    ∀ i j, (l.foldl admitStep acc).1.jobs.get? i = some j → j.isRunning = true →
      ∃ e, j.endTime = some e ∧ ETime.ble (l.foldl admitStep acc).2 e = true := by
  intro l
  induction l with
  | nil =>
    intro acc hpre i j hj hr
    exact hpre i j hj hr
  | cons a l ih =>
    intro acc hpre
    refine ih (admitStep acc a) ?_
    intro i j hj hr
    rcases admitStep_char acc a with hc | ⟨ja, hja, hruna, hsca, hcpua, hmema, hc⟩
    · rw [hc] at hj ⊢
      exact hpre i j hj hr
    · rw [hc] at hj ⊢
      have hjobs : (admitResult acc.1 a ja, ETime.emin acc.2 (ETime.addNat acc.1.t ja.duration)).1.jobs = acc.1.jobs.set a { ja with isRunning := true, startTime := some acc.1.t, endTime := some (ETime.addNat acc.1.t ja.duration) } := rfl
      rw [hjobs] at hj
      by_cases hia : i = a
      · subst hia
        have hlen : i < acc.1.jobs.length := lt_length_of_get?_some hja
        rw [List.get?_set_eq_of_lt _ hlen] at hj
        have hjj : j = { ja with isRunning := true, startTime := some acc.1.t, endTime := some (ETime.addNat acc.1.t ja.duration) } :=
          (Option.some.inj hj).symm
        subst hjj
        exact ⟨ETime.addNat acc.1.t ja.duration, rfl, ETime.emin_ble_right _ _⟩
      · rw [List.get?_set_ne _ _ fun hh => hia hh.symm] at hj
        obtain ⟨e, he, hble⟩ := hpre i j hj hr
        exact ⟨e, he, ETime.ble_trans (ETime.emin_ble_left _ _) hble⟩

theorem retireStep_jobs_len (acc : LoopState × ETime) (i : Nat) :
    (retireStep acc i).1.jobs.length = acc.1.jobs.length := by
  rcases retireStep_char acc i with h | ⟨j, e, _, _, _, _, _, h⟩ | ⟨j, hj, _, h⟩ <;>
    rw [h]
  show (acc.1.jobs.set i _).length = acc.1.jobs.length
  exact List.length_set acc.1.jobs _ _

theorem admitStep_jobs_len (acc : LoopState × ETime) (i : Nat) :
    (admitStep acc i).1.jobs.length = acc.1.jobs.length := by
  rcases admitStep_char acc i with h | ⟨j, hj, _, _, _, _, h⟩ <;> rw [h]
  show (acc.1.jobs.set i _).length = acc.1.jobs.length
  exact List.length_set acc.1.jobs _ _

theorem admitStep_admitted_ge (acc : LoopState × ETime) (i : Nat) :
    admittedCount acc.1.jobs ≤ admittedCount (admitStep acc i).1.jobs := by
  rcases admitStep_char acc i with h | ⟨j, hj, _, _, _, _, h⟩ <;> rw [h]
  have hms := admittedCount_set acc.1.jobs i j { j with isRunning := true, startTime := some acc.1.t, endTime := some (ETime.addNat acc.1.t j.duration) } hj
  have hfle : (if j.startTime.isSome then 1 else 0) ≤ 1 := by
    split <;> omega
  have hf' : (if ({ j with isRunning := true, startTime := some acc.1.t, endTime := some (ETime.addNat acc.1.t j.duration) } : JobState).startTime.isSome then 1 else 0) = 1 := rfl
  rw [hf'] at hms
  show admittedCount acc.1.jobs ≤ admittedCount (acc.1.jobs.set i { j with isRunning := true, startTime := some acc.1.t, endTime := some (ETime.addNat acc.1.t j.duration) })
  omega

theorem retire_fold_jobs_len : ∀ (l : List Nat) (acc : LoopState × ETime),
    (l.foldl retireStep acc).1.jobs.length = acc.1.jobs.length := by
  intro l
  induction l with
  | nil => intro acc; rfl
  | cons a l ih =>
    intro acc
    exact (ih (retireStep acc a)).trans (retireStep_jobs_len acc a)

theorem admit_fold_jobs_len : ∀ (l : List Nat) (acc : LoopState × ETime),
    (l.foldl admitStep acc).1.jobs.length = acc.1.jobs.length := by
  intro l
  induction l with
  | nil => intro acc; rfl
  | cons a l ih =>
    intro acc
    exact (ih (admitStep acc a)).trans (admitStep_jobs_len acc a)

theorem admit_fold_admitted_ge : ∀ (l : List Nat) (acc : LoopState × ETime),
    admittedCount acc.1.jobs ≤ admittedCount (l.foldl admitStep acc).1.jobs := by
  intro l
  induction l with
  | nil => intro acc; exact le_refl _
  | cons a l ih =>
    intro acc
    exact le_trans (admitStep_admitted_ge acc a) (ih (admitStep acc a))

theorem loopIter_inv {mc mm nT nS : Nat} {s : LoopState}
    (hI : InvCore mc mm nT nS s) : InvCore mc mm nT nS (loopIter s) := by
  have hI1 : InvCore mc mm nT nS (retirePhase s).1 := retirePhase_inv hI
  have hpre1 : ∀ i j, (s, ETime.inf).1.jobs.get? i = some j → j.isRunning = true →
      ∃ e, j.endTime = some e ∧
        (i ∈ s.schedule ∨ (ETime.ble (s, ETime.inf).2 e = true ∧
          j.endTime ≠ some (s, ETime.inf).1.t)) := by
    intro i j hj hr
    obtain ⟨e, he, _⟩ := hI.run_end j (List.get?_mem hj) hr
    exact ⟨e, he, Or.inl (hI.run_sched i j hj hr)⟩
  have hq1 := retire_fold_q s.schedule (s, ETime.inf) hI hpre1
  have hpre2 : ∀ i j,
      ((retirePhase s).1, (retirePhase s).2).1.jobs.get? i = some j →
      j.isRunning = true →
      ∃ e, j.endTime = some e ∧
        ETime.ble ((retirePhase s).1, (retirePhase s).2).2 e = true := by
    intro i j hj hr
    obtain ⟨e, he, hble, _⟩ := hq1 i j hj hr
    exact ⟨e, he, hble⟩
  have hq2 := admit_fold_q (List.range (retirePhase s).1.jobs.length)
    ((retirePhase s).1, (retirePhase s).2) hpre2
  have hIa : InvCore mc mm nT nS
      ((List.range (retirePhase s).1.jobs.length).foldl admitStep
        ((retirePhase s).1, (retirePhase s).2)).1 :=
    admit_fold_inv _ _ hI1
  refine ⟨hIa.sc_len, hIa.jobs_count, hIa.rem_eq, hIa.static, hIa.complete,
    hIa.run_sched, ?_, hIa.sc_run, hIa.sc_done, hIa.res_c, hIa.res_m⟩
  intro j hmem hr
  obtain ⟨i, hi⟩ := List.mem_iff_get?.mp hmem
  obtain ⟨e, he, hble⟩ := hq2 i j hi hr
  exact ⟨e, he, hble⟩

theorem loopIter_remaining_le (s : LoopState) :
    (loopIter s).remaining ≤ s.remaining := by
  have h1 := retirePhase_remaining_le s
  have h2 := admit_fold_remaining (List.range (retirePhase s).1.jobs.length)
    ((retirePhase s).1, (retirePhase s).2)
  have h3 : ((retirePhase s).1, (retirePhase s).2).1.remaining
      = (retirePhase s).1.remaining := rfl
  show ((List.range (retirePhase s).1.jobs.length).foldl admitStep
    ((retirePhase s).1, (retirePhase s).2)).1.remaining ≤ s.remaining
  omega

theorem loopIter_remaining_eq (s : LoopState) :
    (loopIter s).remaining = (retirePhase s).1.remaining := by
  have h2 := admit_fold_remaining (List.range (retirePhase s).1.jobs.length)
    ((retirePhase s).1, (retirePhase s).2)
  exact h2

theorem loopIter_jobs_len (s : LoopState) :
    (loopIter s).jobs.length = s.jobs.length := by
  have h1 := retire_fold_jobs_len s.schedule (s, ETime.inf)
  have h2 := admit_fold_jobs_len (List.range (retirePhase s).1.jobs.length)
    ((retirePhase s).1, (retirePhase s).2)
  show ((List.range (retirePhase s).1.jobs.length).foldl admitStep
    ((retirePhase s).1, (retirePhase s).2)).1.jobs.length = s.jobs.length
  rw [h2]
  exact h1

theorem loopIter_admitted_ge (s : LoopState) :
    admittedCount s.jobs ≤ admittedCount (loopIter s).jobs := by
  have h1 := retirePhase_admitted s
  have h2 := admit_fold_admitted_ge (List.range (retirePhase s).1.jobs.length)
    ((retirePhase s).1, (retirePhase s).2)
  have h3 : admittedCount ((retirePhase s).1, (retirePhase s).2).1.jobs
      = admittedCount (retirePhase s).1.jobs := rfl
  show admittedCount s.jobs ≤
    admittedCount ((List.range (retirePhase s).1.jobs.length).foldl admitStep
      ((retirePhase s).1, (retirePhase s).2)).1.jobs
  omega

theorem sum_lt_exists (nT : Nat) : ∀ (l : List Nat), l.sum < nT * l.length →
    ∃ p, p < l.length ∧ l.getD p 0 < nT := by
  intro l
  induction l with
  | nil =>
    intro h
    simp at h
  | cons a l ih =>
    intro h
    simp only [List.sum_cons, List.length_cons] at h
    by_cases ha : a < nT
    · exact ⟨0, Nat.succ_pos _, ha⟩
    · have h2 : l.sum < nT * l.length := by
        have h3 : nT * (l.length + 1) = nT * l.length + nT := by ring
        omega
      obtain ⟨p, hp, hv⟩ := ih h2
      refine ⟨p + 1, ?_, ?_⟩
      · simp only [List.length_cons]
        omega
      · simpa using hv

theorem admittedCount_eq_zero (l : List JobState)
    (h : ∀ j ∈ l, j.startTime = none) : admittedCount l = 0 := by
  induction l with
  | nil => rfl
  | cons j l ih =>
    have hj := h j (List.mem_cons_self j l)
    have hrest := ih fun a ha => h a (List.mem_cons_of_mem j ha)
    simp only [admittedCount, List.map_cons, List.sum_cons] at *
    rw [hj] at *
    simpa using hrest

theorem stall_impossible {mc mm nT nS : Nat} {s : LoopState} (nt : ETime)
    (hI : InvCore mc mm nT nS s) (h0 : 0 < s.remaining)
    (hnorun : ∀ j ∈ s.jobs, j.isRunning = false)
    (hnoop : (List.range s.jobs.length).foldl admitStep (s, nt) = (s, nt)) :
    False := by
  have hsum : s.stepsCompleted.sum < nT * s.stepsCompleted.length := by
    have hre := hI.rem_eq
    have hlen := hI.sc_len
    rw [hlen]
    omega
  obtain ⟨p, hp, hv⟩ := sum_lt_exists nT s.stepsCompleted hsum
  have hpS : p < nS := hI.sc_len ▸ hp
  obtain ⟨i, j, hj, hstep, hsamp⟩ := hI.complete p hpS (s.stepsCompleted.getD p 0) hv
  have hmem := List.get?_mem hj
  obtain ⟨hc, hm, _, _⟩ := hI.static j hmem
  have hrun := hnorun j hmem
  have hrc : runningCpus s.jobs = 0 := runningCpus_eq_zero _ hnorun
  have hrm : runningMem s.jobs = 0 := runningMem_eq_zero _ hnorun
  have hac : j.cpus ≤ s.availableCpus := by
    have := hI.res_c
    omega
  have ham : j.memory ≤ s.availableMem := by
    have := hI.res_m
    omega
  have hscond : s.stepsCompleted.getD j.sampleIdx 0 = j.step := by
    rw [hsamp, hstep]
  have hilen : i < s.jobs.length := lt_length_of_get?_some hj
  have hid := admit_fold_noop (List.range s.jobs.length) (s, nt) hnoop i
    (List.mem_range.mpr hilen)
  exact admit_noop_not_cond (s, nt) i j hj hrun hscond hac ham hid

theorem loopIter_progress {mc mm nT nS : Nat} {s : LoopState}
    (hI : InvCore mc mm nT nS s) (h0 : 0 < s.remaining) :
    (loopIter s).remaining < s.remaining ∨
      ((loopIter s).remaining = s.remaining ∧
        admittedCount s.jobs < admittedCount (loopIter s).jobs) ∨
      ((loopIter s).remaining = s.remaining ∧
        (loopIter (loopIter s)).remaining < (loopIter s).remaining) := by
  rcases retirePhase_state_cases s with hdec | hs1
  · left
    have h1 := loopIter_remaining_eq s
    omega
  · rcases admit_fold_state_cases (List.range (retirePhase s).1.jobs.length)
        ((retirePhase s).1, (retirePhase s).2) with hnoop | hgrow
    · -- the admission scan changed nothing
      have hloop : loopIter s = { s with t := (retirePhase s).2 } := by
        show { ((List.range (retirePhase s).1.jobs.length).foldl admitStep
            ((retirePhase s).1, (retirePhase s).2)).1 with
            t := ((List.range (retirePhase s).1.jobs.length).foldl admitStep
            ((retirePhase s).1, (retirePhase s).2)).2 } = { s with t := (retirePhase s).2 }
        rw [hnoop, hs1]
      rw [hs1] at hnoop
      have hall : (∀ j ∈ s.jobs, j.isRunning = false) → False := by
        intro hnorun
        exact stall_impossible (retirePhase s).2 hI h0 hnorun hnoop
      have hrun : ∃ j ∈ s.jobs, j.isRunning = true := by
        by_contra hno
        refine hall fun j hj => ?_
        cases hb : j.isRunning with
        | false => rfl
        | true => exact absurd ⟨j, hj, hb⟩ hno
      obtain ⟨j0, hj0mem, hj0run⟩ := hrun
      right
      right
      constructor
      · rw [hloop]
      · rw [hloop]
        have hpres : (s.schedule.foldl retireStep (s, ETime.inf)).1 = (s, ETime.inf).1 := hs1
        have hfire : ∃ i ∈ s.schedule, ∃ j, s.jobs.get? i = some j ∧
            j.endTime = some (retirePhase s).2 := by
          rcases retire_fold_attain s.schedule (s, ETime.inf) hpres with
            hinf | ⟨i, hiS, j, e, hj, he, hval⟩
          · -- next_t stayed inf: the running job must end at inf too
            obtain ⟨i0, hi0⟩ := List.mem_iff_get?.mp hj0mem
            have hpre1 : ∀ i j, (s, ETime.inf).1.jobs.get? i = some j →
                j.isRunning = true → ∃ e, j.endTime = some e ∧
                  (i ∈ s.schedule ∨ (ETime.ble (s, ETime.inf).2 e = true ∧
                    j.endTime ≠ some (s, ETime.inf).1.t)) := by
              intro i j hj hr
              obtain ⟨e, he, _⟩ := hI.run_end j (List.get?_mem hj) hr
              exact ⟨e, he, Or.inl (hI.run_sched i j hj hr)⟩
            have hq1 := retire_fold_q s.schedule (s, ETime.inf) hI hpre1
            obtain ⟨e0, he0, hble0, _⟩ := hq1 i0 j0 (by rw [hpres]; exact hi0) hj0run
            have hinf2 : (s.schedule.foldl retireStep (s, ETime.inf)).2 = ETime.inf := hinf
            rw [hinf2] at hble0
            have he0inf : e0 = ETime.inf := ETime.eq_inf_of_ble_inf hble0
            refine ⟨i0, hI.run_sched i0 j0 hi0 hj0run, j0, hi0, ?_⟩
            rw [he0, he0inf]
            have hval2 : (retirePhase s).2 = ETime.inf := hinf
            rw [hval2]
          · have hval2 : (retirePhase s).2 = e := hval
            refine ⟨i, hiS, j, hj, ?_⟩
            rw [he, hval2]
        obtain ⟨i, hiS, j, hj, he⟩ := hfire
        have hlt := retire_fold_fires s.schedule
          ({ s with t := (retirePhase s).2 }, ETime.inf) i hiS ⟨j, hj, he⟩
        have h5 := loopIter_remaining_eq { s with t := (retirePhase s).2 }
        have hb2 : (retirePhase { s with t := (retirePhase s).2 }).1.remaining
            = (s.schedule.foldl retireStep
              ({ s with t := (retirePhase s).2 }, ETime.inf)).1.remaining := rfl
        have hb3 : (({ s with t := (retirePhase s).2 }, ETime.inf) :
            LoopState × ETime).1.remaining = s.remaining := rfl
        have hb4 : ({ s with t := (retirePhase s).2 } : LoopState).remaining
            = s.remaining := rfl
        omega
    · -- an admission happened: the schedule grew
      right
      left
      constructor
      · have h1 := loopIter_remaining_eq s
        have h2 : (retirePhase s).1.remaining = s.remaining := by rw [hs1]
        omega
      · have hcnt := admit_fold_count (List.range (retirePhase s).1.jobs.length)
          ((retirePhase s).1, (retirePhase s).2) (retirePhase_inv hI)
        have hbr1 : admittedCount ((retirePhase s).1, (retirePhase s).2).1.jobs
            = admittedCount (retirePhase s).1.jobs := rfl
        have h3 : admittedCount (retirePhase s).1.jobs = admittedCount s.jobs := by
          rw [hs1]
        show admittedCount s.jobs < admittedCount
          ((List.range (retirePhase s).1.jobs.length).foldl admitStep
            ((retirePhase s).1, (retirePhase s).2)).1.jobs
        omega

/-- Termination measure for the event loop: remaining jobs plus the
number of jobs never yet admitted. -/
def measureM (s : LoopState) : Nat :=
  s.remaining.toNat + (s.jobs.length - admittedCount s.jobs)

theorem runLoop_terminates {mc mm nT nS : Nat} : ∀ (n : Nat) (s : LoopState),
    InvCore mc mm nT nS s → 2 * measureM s + 1 ≤ n →
    ∃ s', runLoop n s = some s' := by
  intro n
  induction n using Nat.strong_induction_on with
  | _ n ih =>
    intro s hI hfuel
    by_cases hr : s.remaining ≤ 0
    · exact ⟨s, runLoop_done hr n⟩
    · have h0 : 0 < s.remaining := by omega
      have hMdef : measureM s
          = s.remaining.toNat + (s.jobs.length - admittedCount s.jobs) := rfl
      have hcle : admittedCount s.jobs ≤ s.jobs.length := admittedCount_le_length _
      have hlen1 : (loopIter s).jobs.length = s.jobs.length := loopIter_jobs_len s
      have hadm1 : admittedCount s.jobs ≤ admittedCount (loopIter s).jobs :=
        loopIter_admitted_ge s
      have hcle1 : admittedCount (loopIter s).jobs ≤ (loopIter s).jobs.length :=
        admittedCount_le_length _
      cases n with
      | zero =>
        exfalso
        rw [hMdef] at hfuel
        omega
      | succ m =>
        have hstep : runLoop (m + 1) s = runLoop m (loopIter s) := by
          simp [runLoop, hr]
        rcases loopIter_progress hI h0 with hA | ⟨hB1, hB2⟩ | ⟨hC1, hC2⟩
        · have hfuel2 : 2 * measureM (loopIter s) + 1 ≤ m := by
            have hMdef2 : measureM (loopIter s) = (loopIter s).remaining.toNat
                + ((loopIter s).jobs.length - admittedCount (loopIter s).jobs) := rfl
            rw [hMdef] at hfuel
            rw [hMdef2]
            omega
          obtain ⟨s', hs'⟩ := ih m (Nat.lt_succ_self m) (loopIter s)
            (loopIter_inv hI) hfuel2
          exact ⟨s', by rw [hstep]; exact hs'⟩
        · have hfuel2 : 2 * measureM (loopIter s) + 1 ≤ m := by
            have hMdef2 : measureM (loopIter s) = (loopIter s).remaining.toNat
                + ((loopIter s).jobs.length - admittedCount (loopIter s).jobs) := rfl
            rw [hMdef] at hfuel
            rw [hMdef2]
            omega
          obtain ⟨s', hs'⟩ := ih m (Nat.lt_succ_self m) (loopIter s)
            (loopIter_inv hI) hfuel2
          exact ⟨s', by rw [hstep]; exact hs'⟩
        · cases m with
          | zero =>
            exfalso
            rw [hMdef] at hfuel
            omega
          | succ m2 =>
            have hr1 : ¬(loopIter s).remaining ≤ 0 := by omega
            have hstep2 : runLoop (m2 + 1) (loopIter s)
                = runLoop m2 (loopIter (loopIter s)) := by
              simp [runLoop, hr1]
            have hlen2 : (loopIter (loopIter s)).jobs.length
                = (loopIter s).jobs.length := loopIter_jobs_len _
            have hadm2 : admittedCount (loopIter s).jobs
                ≤ admittedCount (loopIter (loopIter s)).jobs := loopIter_admitted_ge _
            have hcle2 : admittedCount (loopIter (loopIter s)).jobs
                ≤ (loopIter (loopIter s)).jobs.length := admittedCount_le_length _
            have hfuel2 : 2 * measureM (loopIter (loopIter s)) + 1 ≤ m2 := by
              have hMdef2 : measureM (loopIter (loopIter s))
                  = (loopIter (loopIter s)).remaining.toNat
                    + ((loopIter (loopIter s)).jobs.length
                      - admittedCount (loopIter (loopIter s)).jobs) := rfl
              rw [hMdef] at hfuel
              rw [hMdef2]
              omega
            obtain ⟨s', hs'⟩ := ih m2 (by omega) (loopIter (loopIter s))
              (loopIter_inv (loopIter_inv hI)) hfuel2
            refine ⟨s', ?_⟩
            rw [hstep, hstep2]
            exact hs'

theorem stepsMatch_mem : ∀ (ts : List PipelineTask) (i : Nat),
    stepsMatchFrom i ts = true → ∀ t ∈ ts, t.step < i + ts.length := by
  intro ts
  induction ts with
  | nil =>
    intro i _ t ht
    cases ht
  | cons a rest ih =>
    intro i h t ht
    simp only [stepsMatchFrom, Bool.and_eq_true, beq_iff_eq] at h
    obtain ⟨ha, hrest⟩ := h
    rcases List.mem_cons.mp ht with rfl | hmem
    · simp only [List.length_cons]
      omega
    · have h2 := ih (i + 1) hrest t hmem
      simp only [List.length_cons]
      omega

theorem stepsMatch_get : ∀ (ts : List PipelineTask) (i : Nat),
    stepsMatchFrom i ts = true → ∀ k, k < ts.length →
    ∃ t, ts.get? k = some t ∧ t.step = i + k := by
  intro ts
  induction ts with
  | nil =>
    intro i _ k hk
    simp at hk
  | cons a rest ih =>
    intro i h k hk
    simp only [stepsMatchFrom, Bool.and_eq_true, beq_iff_eq] at h
    obtain ⟨ha, hrest⟩ := h
    cases k with
    | zero => exact ⟨a, rfl, by omega⟩
    | succ k2 =>
      have hk2 : k2 < rest.length := by
        simp only [List.length_cons] at hk
        omega
      obtain ⟨t, hget, hstep⟩ := ih (i + 1) hrest k2 hk2
      exact ⟨t, hget, by omega⟩

theorem buildRowFrom_length (t : PipelineTask) : ∀ (sizes : List Nat) (i : Nat)
    (js : List JobState), buildRowFrom t i sizes = some js →
    js.length = sizes.length := by
  intro sizes
  induction sizes with
  | nil =>
    intro i js h
    simp only [buildRowFrom] at h
    cases h
    rfl
  | cons sz rest ih =>
    intro i js h
    cases hpf : t.parallelFunc sz t.timeFactor t.cpus with
    | none => simp [buildRowFrom, hpf] at h
    | some d =>
      cases hrow : buildRowFrom t (i + 1) rest with
      | none => simp [buildRowFrom, hpf, hrow] at h
      | some row =>
        simp only [buildRowFrom, hpf, hrow] at h
        cases h
        simp only [List.length_cons]
        rw [ih (i + 1) row hrow]

theorem buildRowFrom_origin (t : PipelineTask) : ∀ (sizes : List Nat) (i : Nat)
    (js : List JobState), buildRowFrom t i sizes = some js →
    ∀ j ∈ js, j.step = t.step ∧ i ≤ j.sampleIdx ∧ j.sampleIdx < i + sizes.length ∧
      j.isRunning = false ∧ j.startTime = none := by
  intro sizes
  induction sizes with
  | nil =>
    intro i js h j hj
    simp only [buildRowFrom] at h
    cases h
    cases hj
  | cons sz rest ih =>
    intro i js h j hj
    cases hpf : t.parallelFunc sz t.timeFactor t.cpus with
    | none => simp [buildRowFrom, hpf] at h
    | some d =>
      cases hrow : buildRowFrom t (i + 1) rest with
      | none => simp [buildRowFrom, hpf, hrow] at h
      | some row =>
        simp only [buildRowFrom, hpf, hrow] at h
        cases h
        rcases List.mem_cons.mp hj with rfl | hmem
        · refine ⟨rfl, le_refl i, ?_, rfl, rfl⟩
          simp only [List.length_cons]
          omega
        · obtain ⟨h1, h2, h3, h4, h5⟩ := ih (i + 1) row hrow j hmem
          refine ⟨h1, by omega, ?_, h4, h5⟩
          simp only [List.length_cons]
          omega

theorem buildRowFrom_complete (t : PipelineTask) : ∀ (sizes : List Nat) (i : Nat)
    (js : List JobState), buildRowFrom t i sizes = some js →
    ∀ p, p < sizes.length → ∃ j ∈ js, j.sampleIdx = i + p ∧ j.step = t.step := by
  intro sizes
  induction sizes with
  | nil =>
    intro i js h p hp
    simp at hp
  | cons sz rest ih =>
    intro i js h p hp
    cases hpf : t.parallelFunc sz t.timeFactor t.cpus with
    | none => simp [buildRowFrom, hpf] at h
    | some d =>
      cases hrow : buildRowFrom t (i + 1) rest with
      | none => simp [buildRowFrom, hpf, hrow] at h
      | some row =>
        simp only [buildRowFrom, hpf, hrow] at h
        cases h
        cases p with
        | zero =>
          refine ⟨_, List.mem_cons_self _ _, ?_, rfl⟩
          show i = i + 0
          omega
        | succ p2 =>
          have hp2 : p2 < rest.length := by
            simp only [List.length_cons] at hp
            omega
          obtain ⟨j, hjmem, hjs, hjstep⟩ := ih (i + 1) row hrow p2 hp2
          exact ⟨j, List.mem_cons_of_mem _ hjmem, by omega, hjstep⟩

theorem buildJobs_length (sizes : List Nat) : ∀ (ts : List PipelineTask)
    (js : List JobState), buildJobs sizes ts = some js →
    js.length = ts.length * sizes.length := by
  intro ts
  induction ts with
  | nil =>
    intro js h
    simp only [buildJobs] at h
    cases h
    simp
  | cons t rest ih =>
    intro js h
    cases hrow : buildRowFrom t 0 sizes with
    | none => simp [buildJobs, hrow] at h
    | some row =>
      cases hmore : buildJobs sizes rest with
      | none => simp [buildJobs, hrow, hmore] at h
      | some more =>
        simp only [buildJobs, hrow, hmore] at h
        cases h
        have h1 := buildRowFrom_length t sizes 0 row hrow
        have h2 := ih more hmore
        simp only [List.length_append, List.length_cons, Nat.succ_mul]
        omega

theorem buildJobs_origin (sizes : List Nat) : ∀ (ts : List PipelineTask)
    (js : List JobState), buildJobs sizes ts = some js →
    ∀ j ∈ js, (∃ t ∈ ts, j.step = t.step) ∧ j.sampleIdx < sizes.length ∧
      j.isRunning = false ∧ j.startTime = none := by
  intro ts
  induction ts with
  | nil =>
    intro js h j hj
    simp only [buildJobs] at h
    cases h
    cases hj
  | cons t rest ih =>
    intro js h j hj
    cases hrow : buildRowFrom t 0 sizes with
    | none => simp [buildJobs, hrow] at h
    | some row =>
      cases hmore : buildJobs sizes rest with
      | none => simp [buildJobs, hrow, hmore] at h
      | some more =>
        simp only [buildJobs, hrow, hmore] at h
        cases h
        rcases List.mem_append.mp hj with hmem | hmem
        · obtain ⟨h1, _, h3, h4, h5⟩ := buildRowFrom_origin t sizes 0 row hrow j hmem
          exact ⟨⟨t, List.mem_cons_self _ _, h1⟩, by omega, h4, h5⟩
        · obtain ⟨⟨t', ht', h1⟩, h2, h3, h4⟩ := ih more hmore j hmem
          exact ⟨⟨t', List.mem_cons_of_mem _ ht', h1⟩, h2, h3, h4⟩

theorem buildJobs_complete (sizes : List Nat) : ∀ (ts : List PipelineTask)
    (js : List JobState), buildJobs sizes ts = some js →
    ∀ t ∈ ts, ∀ p, p < sizes.length →
      ∃ j ∈ js, j.sampleIdx = p ∧ j.step = t.step := by
  intro ts
  induction ts with
  | nil =>
    intro js h t ht
    cases ht
  | cons t0 rest ih =>
    intro js h t ht p hp
    cases hrow : buildRowFrom t0 0 sizes with
    | none => simp [buildJobs, hrow] at h
    | some row =>
      cases hmore : buildJobs sizes rest with
      | none => simp [buildJobs, hrow, hmore] at h
      | some more =>
        simp only [buildJobs, hrow, hmore] at h
        cases h
        rcases List.mem_cons.mp ht with rfl | hmem
        · obtain ⟨j, hjmem, hjs, hjstep⟩ := buildRowFrom_complete t sizes 0 row hrow p hp
          exact ⟨j, List.mem_append_left _ hjmem, by omega, hjstep⟩
        · obtain ⟨j, hjmem, hjs, hjstep⟩ := ih more hmore t hmem p hp
          exact ⟨j, List.mem_append_right _ hjmem, hjs, hjstep⟩

theorem sortTasks_length (ts : List PipelineTask) :
    (sortTasks ts).length = ts.length :=
  (List.perm_insertionSort _ ts).length_eq

theorem anyInfeasible_false {mm mc : Nat} {js : List JobState}
    (ha : anyInfeasible mm mc js = false) :
    ∀ j ∈ js, j.memory ≤ mm ∧ j.cpus ≤ mc := by
  intro j hj
  have h2 : ¬(Nat.blt mm j.memory || Nat.blt mc j.cpus) = true := by
    intro hcon
    have h3 : anyInfeasible mm mc js = true :=
      List.any_eq_true.mpr ⟨j, hj, hcon⟩
    rw [ha] at h3
    cases h3
  rw [Bool.or_eq_true, not_or] at h2
  obtain ⟨hm, hc⟩ := h2
  rw [Nat.blt_eq] at hm hc
  exact ⟨Nat.not_lt.mp hm, Nat.not_lt.mp hc⟩

theorem initState_inv (fs : List Nat) (mm mc : Nat) (ts : List PipelineTask)
    (jobs : List JobState)
    (hv : validSteps (sortTasks ts) = true)
    (hb : buildJobs fs (sortTasks ts) = some jobs)
    (ha : anyInfeasible mm mc jobs = false) :
    InvCore mc mm ts.length fs.length (initState fs mm mc ts.length jobs) := by
  have horig := buildJobs_origin fs (sortTasks ts) jobs hb
  have hfeas := anyInfeasible_false ha
  constructor
  · simp [initState]
  · show jobs.length = ts.length * fs.length
    rw [buildJobs_length fs (sortTasks ts) jobs hb, sortTasks_length]
  · show ((ts.length * fs.length : Nat) : Int)
      = ((ts.length * fs.length : Nat) : Int)
        - ((List.replicate fs.length (0 : Nat)).sum : Int)
    simp
  · intro j hj
    obtain ⟨⟨t, htmem, hstep⟩, hsamp, hrunf, hstf⟩ := horig j hj
    obtain ⟨hmem2, hcpu⟩ := hfeas j hj
    refine ⟨hcpu, hmem2, hsamp, ?_⟩
    have hbound := stepsMatch_mem (sortTasks ts) 0 hv t htmem
    rw [sortTasks_length] at hbound
    rw [hstep]
    omega
  · intro p hp k hk
    have hk2 : k < (sortTasks ts).length := by
      rw [sortTasks_length]
      exact hk
    obtain ⟨t, hget, htstep⟩ := stepsMatch_get (sortTasks ts) 0 hv k hk2
    have htmem : t ∈ sortTasks ts := List.get?_mem hget
    obtain ⟨j, hjmem, hjsamp, hjstep⟩ :=
      buildJobs_complete fs (sortTasks ts) jobs hb t htmem p hp
    obtain ⟨i, hi⟩ := List.mem_iff_get?.mp hjmem
    exact ⟨i, j, hi, by omega, hjsamp⟩
  · intro i j hj hrun
    have h := (horig j (List.get?_mem hj)).2.2.1
    rw [h] at hrun
    cases hrun
  · intro j hjmem hrun
    have h := (horig j hjmem).2.2.1
    rw [h] at hrun
    cases hrun
  · intro j hjmem hrun
    have h := (horig j hjmem).2.2.1
    rw [h] at hrun
    cases hrun
  · intro j hjmem hst _
    exact absurd (horig j hjmem).2.2.2 hst
  · show mc ≤ mc + runningCpus jobs
    exact Nat.le_add_right mc _
  · show mm ≤ mm + runningMem jobs
    exact Nat.le_add_right mm _

theorem initState_measure (fs : List Nat) (mm mc nT : Nat) (jobs : List JobState)
    (hst : ∀ j ∈ jobs, j.startTime = none) :
    measureM (initState fs mm mc nT jobs)
      = nT * fs.length + jobs.length := by
  show ((nT * fs.length : Nat) : Int).toNat + (jobs.length - admittedCount jobs)
    = nT * fs.length + jobs.length
  rw [admittedCount_eq_zero jobs hst]
  omega

/-- Claim C7: for every input that passes both validations (so the
simulation actually starts), the event loop terminates: `remaining`
reaches a value `≤ 0` after finitely many iterations — the model's fuel
of `4 * jobs.length + 4` iterations always suffices — and
`calcMakespan` returns a value rather than diverging.  (Durations are
`Nat`s, so the claim's finite-and-nonnegative proviso holds for every
constructed job; on inputs that fail a validation or raise, the
function also returns without entering the loop.) -/
theorem calc_never_diverges (fs : List Nat) (mm mc : Nat)
    (ts : List PipelineTask) :
    (calcMakespan fs mm mc ts).1 ≠ CalcResult.diverge := by
  by_cases hv : validSteps (sortTasks ts) = true
  · cases hb : buildJobs fs (sortTasks ts) with
    | none => simp [calcMakespan, hv, hb]
    | some jobs =>
      by_cases ha : anyInfeasible mm mc jobs = true
      · simp [calcMakespan, hv, hb, ha]
      · have ha' : anyInfeasible mm mc jobs = false := by
          cases hx : anyInfeasible mm mc jobs
          · rfl
          · exact absurd hx ha
        have hI := initState_inv fs mm mc ts jobs hv hb ha'
        have hst : ∀ j ∈ jobs, j.startTime = none := fun j hj =>
          (buildJobs_origin fs (sortTasks ts) jobs hb j hj).2.2.2
        have hJ : jobs.length = ts.length * fs.length := by
          rw [buildJobs_length fs (sortTasks ts) jobs hb, sortTasks_length]
        have hmeas := initState_measure fs mm mc ts.length jobs hst
        have hfuel : 2 * measureM (initState fs mm mc ts.length jobs) + 1
            ≤ 4 * jobs.length + 4 := by omega
        obtain ⟨s', hs'⟩ := runLoop_terminates (4 * jobs.length + 4)
          (initState fs mm mc ts.length jobs) hI hfuel
        have hchar := calc_run_char fs mm mc ts jobs s' hv hb ha' hs'
        rw [hchar]
        simp
  · simp [calcMakespan, hv]
